import Mathlib

/-
Shallow embedding of the opencache repository (package `cache` in
src/cache/cache.go and package `internal` in src/internal/utils.go).

Conventions of the embedding:
* Go `interface` values are modeled by the inductive `GoValue`.
* Timestamps and durations are integers (nanoseconds, as in Go's
  `time.Time`/`time.Duration`); each operation receives the value of
  `time.Now()` as an explicit `now` argument.
* A Go runtime panic is modeled by `Except.error` carrying the panic message.
* The append-only log file is modeled by the list of records appended to it;
  file-system failures are modeled by explicit boolean oracles.
-/

deriving instance DecidableEq for Except

namespace OpenCacheGo

/-- Model of the Go `interface` values used as cache keys and values.
`floatV n` stands for the `float64` whose numeric value is the integer `n`
(the model covers the exactly-representable range); `sliceV` models a Go
`[]int` slice - a usable value but not a comparable key; `jsonArrV` models
the `[]interface` of `float64` elements produced when a JSON array is
decoded back into an `interface` value. -/
inductive GoValue where
  | nilV
  | boolV (b : Bool)
  | strV (s : String)
  | intV (n : Int)
  | floatV (n : Int)
  | sliceV (xs : List Int)
  | jsonArrV (xs : List Int)
  deriving DecidableEq

/-- Model of `internal.ValidateKey` (src/internal/utils.go lines 8-17):
returns the error for a nil key or a key whose Go type is not comparable
(slices are not comparable), and `none` for every other key. -/
def ValidateKey (key : GoValue) : Option String :=
  match key with
  | .nilV => some "key cannot be nil"
  | .sliceV _ => some "invalid key type: slice is not comparable"
  | .jsonArrV _ => some "invalid key type: slice is not comparable"
  | _ => none

/-- Model of the `entry` struct (cache.go lines 16-20). `expiresAt` is the
optional absolute expiry timestamp in nanoseconds (`*time.Time`). -/
structure GoEntry where
  key : GoValue
  value : GoValue
  expiresAt : Option Int
  deriving DecidableEq

/-- Model of the `OpenCache` struct (cache.go lines 22-29).

`lruDeque` models the `container/list` recency list, front = most recently
used. `cache` models the key set of the index map
`Cache map[interface]*list.Element`; the value the Go map stores under a key
is the pointer to the recency-list node holding that key, and in every
reachable state that node is the unique `lruDeque` element whose `key` field
equals the map key, so node lookup through the map is modeled by `find?` on
the deque guarded by membership in `cache`. The mutex is not modeled: every
public operation holds it for its whole duration, so operations are atomic
state transitions. -/
structure OpenCache where
  cache : List GoValue
  lruDeque : List GoEntry
  capacity : Int
  persistent : Bool
  logPath : String
  deriving DecidableEq

/-- Model of `NewOpenCache` (cache.go lines 32-43): a capacity below 1 is
clamped to 1. -/
def NewOpenCache (capacity : Int) (persistent : Bool) (logPath : String) : OpenCache :=
  { cache := [], lruDeque := [],
    capacity := if capacity < 1 then 1 else capacity,
    persistent := persistent, logPath := logPath }

/-- Model of `list.MoveToFront` applied to the node holding `key`: the node
is unlinked and re-linked at the front, the relative order of the other
nodes is unchanged; when no node with this key is in the list the call is a
no-op (`MoveToFront` on an element that is not in the ring does nothing). -/
def moveToFront (key : GoValue) (dq : List GoEntry) : List GoEntry :=
  match dq.find? (fun e => e.key == key) with
  | some e => e :: dq.eraseP (fun e => e.key == key)
  | none => dq

/-- Expiry test of `Get` (cache.go line 58): the entry is expired when it
has an expiry and `time.Now().After` it holds - strictly after. -/
def expired (e : GoEntry) (now : Int) : Bool :=
  match e.expiresAt with
  | some exp => now > exp
  | none => false

/-- Model of `OpenCache.Get` (cache.go lines 45-69). Returns the
`(value, ok)` pair and the post-state. An expired entry is deleted from both
the index map and the recency list; a live entry is moved to the front. -/
def Get (kv : OpenCache) (key : GoValue) (now : Int) :
    (Option GoValue × Bool) × OpenCache :=
  if (ValidateKey key).isSome then ((none, false), kv)
  else if kv.cache.contains key then
    match kv.lruDeque.find? (fun e => e.key == key) with
    | some ent =>
      if expired ent now then
        ((none, false),
         { kv with cache := kv.cache.erase ent.key,
                   lruDeque := kv.lruDeque.eraseP (fun e => e.key == key) })
      else
        ((some ent.value, true), { kv with lruDeque := moveToFront key kv.lruDeque })
    | none =>
      -- Unreachable: the index map always references a live deque node.
      ((none, false), kv)
  else ((none, false), kv)

/-- Model of the `LogEntry` record (cache.go lines 172-177). `ttlms` is the
`ttl_ms` field. The `omitempty` options only affect the serialized text: a
decoded record carries `0` for an absent `ttl_ms` and `nilV` for an absent
`value`, exactly as `json.Unmarshal` leaves the zero values in place. -/
structure LogEntry where
  op : String
  key : String
  value : GoValue
  ttlms : Int
  deriving DecidableEq

/-- Model of `makeLogEntry` (cache.go lines 234-246). The unchecked type
assertion `key.(string)` panics for every non-string key (modeled as
`Except.error`). `Duration.Milliseconds` divides the nanosecond count by
10^6 truncating toward zero. -/
def makeLogEntry (op : String) (key : GoValue) (value : GoValue)
    (ttl : Option Int) : Except String LogEntry :=
  match key with
  | .strV s =>
    .ok { op := op, key := s, value := value,
          ttlms := match ttl with | some d => Int.tdiv d 1000000 | none => 0 }
  | _ => .error "interface conversion: interface is not string"

/-- Model of `AppendToLog` (cache.go lines 180-195). `ioOk` says whether
`os.OpenFile` succeeds; on failure the error is printed and swallowed and
nothing is appended. An empty log path is first replaced by the default
`appendonly.aof` - this mutation of `kv.LogPath` persists either way.
Returns the updated cache and the record appended to the file, if any. -/
def AppendToLog (kv : OpenCache) (e : LogEntry) (ioOk : Bool) :
    OpenCache × Option LogEntry :=
  let kv1 := if kv.logPath = "" then { kv with logPath := "appendonly.aof" } else kv
  if ioOk then (kv1, some e) else (kv1, none)

/-- In-memory state transition of `OpenCache.Set` (cache.go lines 80-122):
when the key is in the index map the entry is updated in place through the
map's node pointer (modeled by mapping over the unique deque node with this
key) and moved to the front; otherwise, when the deque is at capacity, the
back (least recently used) node is evicted from both structures, and the new
entry is pushed at the front and indexed. Neither path consults
`expiresAt`. -/
def setCore (kv : OpenCache) (key value : GoValue) (ttl : Option Int) (now : Int) :
    OpenCache :=
  if kv.cache.contains key then
    let newExp : Option Int := ttl.map (fun d => now + d)
    { kv with lruDeque :=
        moveToFront key (kv.lruDeque.map (fun e =>
          if e.key == key then { e with value := value, expiresAt := newExp } else e)) }
  else
    let kv1 :=
      if (kv.lruDeque.length : Int) ≥ kv.capacity then
        match kv.lruDeque.getLast? with
        | some back =>
          { kv with cache := kv.cache.erase back.key, lruDeque := kv.lruDeque.dropLast }
        | none => kv
      else kv
    let newExp : Option Int := ttl.map (fun d => now + d)
    { kv1 with cache := key :: kv1.cache,
               lruDeque := { key := key, value := value, expiresAt := newExp } :: kv1.lruDeque }

/-- Model of `OpenCache.Set` (cache.go lines 71-130): key validation, the
in-memory transition, then - on a persistent cache - `makeLogEntry` (whose
panic on a non-string key aborts the call) followed by `AppendToLog`.
Returns the boolean result, the post-state and the records this call
appended to the log file. On the `Except.error` (panic) path the mutated
locked state is never observed again: the process terminates. -/
def Set (kv : OpenCache) (key value : GoValue) (ttl : Option Int) (now : Int)
    (ioOk : Bool) : Except String (Bool × OpenCache × List LogEntry) :=
  if (ValidateKey key).isSome then .ok (false, kv, [])
  else
    let kv1 := setCore kv key value ttl now
    if kv1.persistent then
      match makeLogEntry "SET" key value ttl with
      | .error m => .error m
      | .ok r =>
        let out := AppendToLog kv1 r ioOk
        .ok (true, out.1, out.2.toList)
    else .ok (true, kv1, [])

/-- In-memory state transition of `OpenCache.Delete` on a present key
(cache.go lines 141-143): the node is removed from the recency list and the
key deleted from the index map. -/
def delCore (kv : OpenCache) (key : GoValue) : OpenCache :=
  { kv with lruDeque := kv.lruDeque.eraseP (fun e => e.key == key),
            cache := kv.cache.erase key }

/-- Model of `OpenCache.Delete` (cache.go lines 132-153). -/
def Delete (kv : OpenCache) (key : GoValue) (ioOk : Bool) :
    Except String (Bool × OpenCache × List LogEntry) :=
  if (ValidateKey key).isSome then .ok (false, kv, [])
  else if kv.cache.contains key then
    let kv1 := delCore kv key
    if kv1.persistent then
      match makeLogEntry "DELETE" key .nilV none with
      | .error m => .error m
      | .ok r =>
        let out := AppendToLog kv1 r ioOk
        .ok (true, out.1, out.2.toList)
    else .ok (true, kv1, [])
  else .ok (false, kv, [])

/-- Model of `OpenCache.Len` (cache.go lines 155-160): `len(kv.Cache)`. -/
def Len (kv : OpenCache) : Nat := kv.cache.length

/-- Effect of `json.Marshal` followed by `json.Unmarshal` on an
`interface`-typed value, as happens to the `Value` field of a record written
to and re-read from the log: null, booleans and strings round-trip; JSON
numbers decode as `float64`; an `[]int` slice decodes as a `[]interface` of
`float64` elements. -/
def jsonRoundTrip : GoValue → GoValue
  | .nilV => .nilV
  | .boolV b => .boolV b
  | .strV s => .strV s
  | .intV n => .floatV n
  | .floatV n => .floatV n
  | .sliceV xs => .jsonArrV xs
  | .jsonArrV xs => .jsonArrV xs

/-- Serialize-then-parse of one log record: `op`, `key` and `ttl_ms`
round-trip exactly, the `interface`-typed `value` decodes per JSON. -/
def parseRecord (e : LogEntry) : LogEntry :=
  { e with value := jsonRoundTrip e.value }

/-- Two's-complement wrap-around of 64-bit signed integer arithmetic: the
representative of `x` modulo 2^64 lying in the int64 range. Go's arithmetic
on `int64`-backed types such as `time.Duration` wraps silently on
overflow. -/
def wrap64 (x : Int) : Int := (x + 2 ^ 63) % 2 ^ 64 - 2 ^ 63

/-- Inside the int64 range the wrap is the identity. -/
theorem wrap64_eq_self (x : Int) (h1 : -(2 ^ 63) ≤ x) (h2 : x < 2 ^ 63) :
    wrap64 x = x := by
  unfold wrap64
  rw [Int.emod_eq_of_lt (by omega) (by omega)]
  omega

/-- Scanner loop of `ReplayLog` (cache.go lines 210-230). Each element of
`lines` is one scanned line after `json.Unmarshal`: `none` for a malformed
line (skipped), `some e` for a decoded record. `times` supplies the value of
`time.Now()` at each line. A `SET` record with `ttl_ms > 0` is replayed
through `Set` with the TTL `time.Duration(ttl_ms) * time.Millisecond` - a
wrapping int64 multiplication, modeled by `wrap64` - and with no TTL
otherwise; a `DELETE` record is replayed through `Delete`. Accumulates the
records the replayed calls append back to the log file; a panic inside a
replayed call propagates. -/
def replayStep (kv : OpenCache) (line : Option LogEntry) (now : Int) :
    Except String (OpenCache × List LogEntry) :=
  match line with
  | none => .ok (kv, [])
  | some e =>
    if e.op = "SET" then
      let ttl : Option Int :=
        if e.ttlms > 0 then some (wrap64 (e.ttlms * 1000000)) else none
      match Set kv (.strV e.key) e.value ttl now true with
      | .error m => .error m
      | .ok (_, kv', recs) => .ok (kv', recs)
    else if e.op = "DELETE" then
      match Delete kv (.strV e.key) true with
      | .error m => .error m
      | .ok (_, kv', recs) => .ok (kv', recs)
    else .ok (kv, [])

def replayLines (kv : OpenCache) : List (Option LogEntry) → List Int →
    Except String (OpenCache × List LogEntry)
  | [], _ => .ok (kv, [])
  | line :: rest, times =>
    match replayStep kv line (times.headD 0) with
    | .error m => .error m
    | .ok (kv', recs) =>
      match replayLines kv' rest times.tail with
      | .error m => .error m
      | .ok (kvf, recsf) => .ok (kvf, recs ++ recsf)

/-- Model of `OpenCache.ReplayLog` (cache.go lines 198-232). `file` is
`none` when `os.Open` fails - the open error is returned and the cache is
untouched; otherwise it holds the scanned lines. `scanErr` is `scanner.Err()`
after the loop (`none` for a clean end of file; on a scan error `file` holds
the prefix of lines scanned before it). The persistence flag is forced off
for the duration of the replay and the original value is restored on exit.
Returns the post-state, the records appended back to the log file during the
replay, and the returned error. -/
def ReplayLog (kv : OpenCache) (file : Option (List (Option LogEntry)))
    (times : List Int) (scanErr : Option String) :
    Except String (OpenCache × List LogEntry × Option String) :=
  match file with
  | none => .ok (kv, [], some "open error")
  | some lines =>
    let prev := kv.persistent
    match replayLines { kv with persistent := false } lines times with
    | .error m => .error m
    | .ok (kv2, recs) => .ok ({ kv2 with persistent := prev }, recs, scanErr)

/-- One mutating call of a history: the arguments of a `Set` (with the
`time.Now()` value observed by the call) or of a `Delete`. -/
inductive CacheOp where
  | setOp (key value : GoValue) (ttl : Option Int) (now : Int)
  | delOp (key : GoValue)
  deriving DecidableEq

/-- Apply one mutating call with succeeding log I/O. -/
def stepOp (kv : OpenCache) : CacheOp → Except String (Bool × OpenCache × List LogEntry)
  | .setOp k v ttl now => Set kv k v ttl now true
  | .delOp k => Delete kv k true

/-- Run a history of mutating calls, collecting the log records appended to
the log file, and propagating a panic. -/
def runOps (kv : OpenCache) : List CacheOp → Except String (OpenCache × List LogEntry)
  | [] => .ok (kv, [])
  | op :: rest =>
    match stepOp kv op with
    | .error m => .error m
    | .ok (_, kv', recs) =>
      match runOps kv' rest with
      | .error m => .error m
      | .ok (kvf, log) => .ok (kvf, recs ++ log)

/-- One public call of any kind, with its environment (time, log I/O
outcome). -/
inductive AnyOp where
  | getA (key : GoValue) (now : Int)
  | setA (key value : GoValue) (ttl : Option Int) (now : Int) (ioOk : Bool)
  | delA (key : GoValue) (ioOk : Bool)
  deriving DecidableEq

/-- Post-state of one public call. On the `Except.error` (panic) path the
process terminates and the state is never observed again, so the branch
value is irrelevant; the pre-state is used. -/
def applyOp (kv : OpenCache) : AnyOp → OpenCache
  | .getA k now => (Get kv k now).2
  | .setA k v ttl now io =>
    match Set kv k v ttl now io with
    | .ok r => r.2.1
    | .error _ => kv
  | .delA k io =>
    match Delete kv k io with
    | .ok r => r.2.1
    | .error _ => kv

/-- States reachable by a sequence of public calls. -/
def runAll (kv : OpenCache) (ops : List AnyOp) : OpenCache := ops.foldl applyOp kv

/-- Key and value of one entry, without its expiry. -/
def projE (e : GoEntry) : GoValue × GoValue := (e.key, e.value)

/-- Key-value projection of the recency list, front first. -/
def kvProj (kv : OpenCache) : List (GoValue × GoValue) :=
  kv.lruDeque.map projE

/-- Value map over a key-value list, keys untouched. -/
def valF (f : GoValue → GoValue) (p : GoValue × GoValue) : GoValue × GoValue :=
  (p.1, f p.2)

/-- Value map over a whole key-value list. -/
def mapVal (f : GoValue → GoValue) (l : List (GoValue × GoValue)) :
    List (GoValue × GoValue) :=
  l.map (valF f)

/-- Simulation relation between an original cache and its replay: same
index-map key list, same capacity, and the recency lists agree key-for-key
and order-for-order with the replayed values equal to `f` of the original
values (expiries are unrelated: replay recomputes them from replay time). -/
def Rel (f : GoValue → GoValue) (A B : OpenCache) : Prop :=
  B.cache = A.cache ∧ kvProj B = mapVal f (kvProj A) ∧ B.capacity = A.capacity

/-- Structural invariant of a reachable cache: the index-map key set is a
permutation of the deque keys, the deque keys are pairwise distinct, and the
deque length is bounded by the (positive) capacity. -/
def Inv (kv : OpenCache) : Prop :=
  kv.cache.Perm (kv.lruDeque.map (fun e => e.key)) ∧
  (kv.lruDeque.map (fun e => e.key)).Nodup ∧
  (kv.lruDeque.length : Int) ≤ kv.capacity ∧ 1 ≤ kv.capacity

/-- Key of the call, for histories restricted to string keys (the only keys
the persistence layer serializes without panicking). -/
def CacheOp.keyIsString : CacheOp → Bool
  | .setOp k _ _ _ => match k with | .strV _ => true | _ => false
  | .delOp k => match k with | .strV _ => true | _ => false

/- Basic projection lemmas. -/

theorem AppendToLog_cache (kv : OpenCache) (e : LogEntry) (io : Bool) :
    (AppendToLog kv e io).1.cache = kv.cache := by
  unfold AppendToLog
  dsimp only
  split <;> split <;> rfl

theorem AppendToLog_lruDeque (kv : OpenCache) (e : LogEntry) (io : Bool) :
    (AppendToLog kv e io).1.lruDeque = kv.lruDeque := by
  unfold AppendToLog
  dsimp only
  split <;> split <;> rfl

theorem AppendToLog_capacity (kv : OpenCache) (e : LogEntry) (io : Bool) :
    (AppendToLog kv e io).1.capacity = kv.capacity := by
  unfold AppendToLog
  dsimp only
  split <;> split <;> rfl

theorem AppendToLog_persistent (kv : OpenCache) (e : LogEntry) (io : Bool) :
    (AppendToLog kv e io).1.persistent = kv.persistent := by
  unfold AppendToLog
  dsimp only
  split <;> split <;> rfl

theorem setCore_persistent (kv : OpenCache) (k v : GoValue) (ttl : Option Int) (now : Int) :
    (setCore kv k v ttl now).persistent = kv.persistent := by
  unfold setCore
  split
  · rfl
  · dsimp only
    split
    · split <;> rfl
    · rfl

theorem setCore_capacity (kv : OpenCache) (k v : GoValue) (ttl : Option Int) (now : Int) :
    (setCore kv k v ttl now).capacity = kv.capacity := by
  unfold setCore
  split
  · rfl
  · dsimp only
    split
    · split <;> rfl
    · rfl

theorem setCore_logPath (kv : OpenCache) (k v : GoValue) (ttl : Option Int) (now : Int) :
    (setCore kv k v ttl now).logPath = kv.logPath := by
  unfold setCore
  split
  · rfl
  · dsimp only
    split
    · split <;> rfl
    · rfl

theorem delCore_persistent (kv : OpenCache) (k : GoValue) :
    (delCore kv k).persistent = kv.persistent := rfl

/-- On a valid key, `Set` on a non-persistent cache performs the in-memory
transition, appends nothing and returns `true`. -/
theorem Set_not_persistent (kv : OpenCache) (h : kv.persistent = false)
    (k v : GoValue) (ttl : Option Int) (now : Int) (io : Bool)
    (hk : ValidateKey k = none) :
    Set kv k v ttl now io = .ok (true, setCore kv k v ttl now, []) := by
  unfold Set
  rw [hk]
  simp [setCore_persistent, h]

/-- On a valid key, `Delete` on a non-persistent cache performs the
in-memory transition, appends nothing and reports presence. -/
theorem Delete_not_persistent (kv : OpenCache) (h : kv.persistent = false)
    (k : GoValue) (io : Bool) (hk : ValidateKey k = none) :
    Delete kv k io =
      .ok (kv.cache.contains k,
           if kv.cache.contains k then delCore kv k else kv, []) := by
  unfold Delete
  rw [hk]
  by_cases hc : k ∈ kv.cache <;>
    simp [hc, delCore_persistent, h]

/- Claim theorems, in claim order where convenient. -/

/-- C9: key-validation failure is a silent no-op. For every invalid key
(nil, or of a non-comparable type), `Get` returns not-found, `Set` returns
`false`, `Delete` returns `false`, and in all three cases the cache state is
exactly what it was before the call and nothing is appended to the log file;
no error value is surfaced to the caller. -/
theorem invalid_key_silent_noop (kv : OpenCache) (key : GoValue)
    (h : (ValidateKey key).isSome = true) (now : Int) (v : GoValue)
    (ttl : Option Int) (io : Bool) :
    Get kv key now = ((none, false), kv) ∧
    Set kv key v ttl now io = .ok (false, kv, []) ∧
    Delete kv key io = .ok (false, kv, []) := by
  refine ⟨?_, ?_, ?_⟩ <;> simp [Get, Set, Delete, h]

theorem invalid_key_silent_noop_witness :
    Get (NewOpenCache 2 true "p") GoValue.nilV 5 = ((none, false), NewOpenCache 2 true "p") ∧
    Set (NewOpenCache 2 true "p") GoValue.nilV (GoValue.intV 1) none 5 true =
      .ok (false, NewOpenCache 2 true "p", []) ∧
    Delete (NewOpenCache 2 true "p") GoValue.nilV true =
      .ok (false, NewOpenCache 2 true "p", []) :=
  invalid_key_silent_noop (NewOpenCache 2 true "p") GoValue.nilV (by decide) 5
    (GoValue.intV 1) none true

/-- C2 is violated by the code: on a persistent cache, `Set` with the key
`5` - a non-nil comparable value accepted by the key validator - does not
run to completion: `makeLogEntry` evaluates the unchecked type assertion
`key.(string)`, which panics and terminates the process. The same panic
hits `Delete` on a present non-string key. -/
theorem set_nonstring_key_persistent_panics :
    ValidateKey (GoValue.intV 5) = none ∧
    Set (NewOpenCache 1 true "p") (GoValue.intV 5) (GoValue.strV "v") none 0 true =
      .error "interface conversion: interface is not string" ∧
    Delete ⟨[GoValue.intV 5], [⟨GoValue.intV 5, GoValue.strV "v", none⟩], 1, true, "p"⟩
        (GoValue.intV 5) true =
      .error "interface conversion: interface is not string" := by
  decide

/-- C6: durability failures are swallowed. On a persistent cache, when the
log append fails to open the log file, `Set` on a (string) key and `Delete`
on a present key still apply their in-memory mutation, append nothing, and
still return `true`; no I/O error reaches the caller. -/
theorem append_failure_swallowed (kv : OpenCache) (hp : kv.persistent = true)
    (s : String) (v : GoValue) (ttl : Option Int) (now : Int) :
    (∃ kv₁, Set kv (.strV s) v ttl now false = .ok (true, kv₁, []) ∧
       kv₁.cache = (setCore kv (.strV s) v ttl now).cache ∧
       kv₁.lruDeque = (setCore kv (.strV s) v ttl now).lruDeque) ∧
    (kv.cache.contains (.strV s) = true →
       ∃ kv₂, Delete kv (.strV s) false = .ok (true, kv₂, []) ∧
         kv₂.cache = (delCore kv (.strV s)).cache ∧
         kv₂.lruDeque = (delCore kv (.strV s)).lruDeque) := by
  constructor
  · refine ⟨(AppendToLog (setCore kv (.strV s) v ttl now)
      ⟨"SET", s, v, match ttl with | some d => Int.tdiv d 1000000 | none => 0⟩ false).1,
      ?_, ?_, ?_⟩
    · unfold Set
      simp [ValidateKey, setCore_persistent, hp, makeLogEntry, AppendToLog]
    · exact AppendToLog_cache ..
    · exact AppendToLog_lruDeque ..
  · intro hc
    replace hc : GoValue.strV s ∈ kv.cache := List.elem_iff.mp hc
    refine ⟨(AppendToLog (delCore kv (.strV s)) ⟨"DELETE", s, .nilV, 0⟩ false).1,
      ?_, ?_, ?_⟩
    · unfold Delete
      simp [ValidateKey, hc, delCore_persistent, hp, makeLogEntry, AppendToLog]
    · exact AppendToLog_cache ..
    · exact AppendToLog_lruDeque ..

theorem append_failure_swallowed_witness :
    (∃ kv₁, Set ⟨[GoValue.strV "a"], [⟨GoValue.strV "a", GoValue.intV 1, none⟩], 1, true, "p"⟩
        (.strV "a") (GoValue.intV 2) none 7 false = .ok (true, kv₁, []) ∧
       kv₁.cache = (setCore ⟨[GoValue.strV "a"], [⟨GoValue.strV "a", GoValue.intV 1, none⟩], 1, true, "p"⟩
          (.strV "a") (GoValue.intV 2) none 7).cache ∧
       kv₁.lruDeque = (setCore ⟨[GoValue.strV "a"], [⟨GoValue.strV "a", GoValue.intV 1, none⟩], 1, true, "p"⟩
          (.strV "a") (GoValue.intV 2) none 7).lruDeque) ∧
    ((⟨[GoValue.strV "a"], [⟨GoValue.strV "a", GoValue.intV 1, none⟩], 1, true, "p"⟩ :
        OpenCache).cache.contains (.strV "a") = true →
       ∃ kv₂, Delete ⟨[GoValue.strV "a"], [⟨GoValue.strV "a", GoValue.intV 1, none⟩], 1, true, "p"⟩
          (.strV "a") false = .ok (true, kv₂, []) ∧
         kv₂.cache = (delCore ⟨[GoValue.strV "a"], [⟨GoValue.strV "a", GoValue.intV 1, none⟩], 1, true, "p"⟩
            (.strV "a")).cache ∧
         kv₂.lruDeque = (delCore ⟨[GoValue.strV "a"], [⟨GoValue.strV "a", GoValue.intV 1, none⟩], 1, true, "p"⟩
            (.strV "a")).lruDeque) :=
  append_failure_swallowed
    ⟨[GoValue.strV "a"], [⟨GoValue.strV "a", GoValue.intV 1, none⟩], 1, true, "p"⟩
    rfl "a" (GoValue.intV 2) none 7

/-- A single replayed line applied to a cache whose persistence flag is off
never panics, never appends to the log file, and leaves the flag off. -/
theorem replayStep_not_persistent (kv : OpenCache) (line : Option LogEntry)
    (now : Int) (h : kv.persistent = false) :
    ∃ kv', replayStep kv line now = .ok (kv', []) ∧ kv'.persistent = false := by
  cases line with
  | none => exact ⟨kv, rfl, h⟩
  | some e =>
    by_cases hset : e.op = "SET"
    · refine ⟨setCore kv (.strV e.key) e.value
        (if e.ttlms > 0 then some (wrap64 (e.ttlms * 1000000)) else none) now,
        ?_, by rw [setCore_persistent]; exact h⟩
      have hS := Set_not_persistent kv h (.strV e.key) e.value
        (if e.ttlms > 0 then some (wrap64 (e.ttlms * 1000000)) else none) now true rfl
      simp [replayStep, hset, hS]
    · by_cases hdel : e.op = "DELETE"
      · have hD := Delete_not_persistent kv h (.strV e.key) true rfl
        by_cases hc : GoValue.strV e.key ∈ kv.cache
        · refine ⟨delCore kv (.strV e.key), ?_, by rw [delCore_persistent]; exact h⟩
          simp [replayStep, hset, hdel, hD, hc]
        · refine ⟨kv, ?_, h⟩
          simp [replayStep, hset, hdel, hD, hc]
      · exact ⟨kv, by simp [replayStep, hset, hdel], h⟩

/-- Replay applied to a cache whose persistence flag is off never panics,
never appends to the log file, and leaves the flag off. -/
theorem replayLines_not_persistent (lines : List (Option LogEntry)) :
    ∀ (kv : OpenCache) (times : List Int), kv.persistent = false →
      ∃ kv', replayLines kv lines times = .ok (kv', []) ∧ kv'.persistent = false := by
  induction lines with
  | nil =>
    intro kv times h
    exact ⟨kv, rfl, h⟩
  | cons line rest ih =>
    intro kv times h
    obtain ⟨kv₁, hstep, hp₁⟩ := replayStep_not_persistent kv line (times.headD 0) h
    obtain ⟨kv', hrun, hp⟩ := ih kv₁ times.tail hp₁
    refine ⟨kv', ?_, hp⟩
    simp only [replayLines, hstep, hrun]
    rfl

/-- C8: ReplayLog preserves the persistence flag. For every cache and every
input - open failure, any scanned lines, any scan error - the call returns
with the cache's persistence flag equal to its value before the call, and no
record read during the replay is appended back to the log file (the flag is
forced off for the duration of the replay, so the replayed `Set`/`Delete`
calls append nothing). -/
theorem replay_preserves_persistence (kv : OpenCache)
    (file : Option (List (Option LogEntry))) (times : List Int)
    (scanErr : Option String) :
    ∃ kv' err, ReplayLog kv file times scanErr = .ok (kv', [], err) ∧
      kv'.persistent = kv.persistent := by
  cases file with
  | none => exact ⟨kv, some "open error", rfl, rfl⟩
  | some lines =>
    obtain ⟨kv2, hrun, _⟩ :=
      replayLines_not_persistent lines { kv with persistent := false } times rfl
    exact ⟨{ kv2 with persistent := kv.persistent }, scanErr,
      by simp [ReplayLog, hrun], rfl⟩

/- List-level helper lemmas about deque projections. -/

theorem find?_perm_cons_eraseP {α : Type} (p : α → Bool) :
    ∀ (l : List α) (a : α), l.find? p = some a → List.Perm l (a :: l.eraseP p) := by
  intro l
  induction l with
  | nil => intro a h; simp at h
  | cons x t ih =>
    intro a h
    by_cases hx : p x
    · rw [List.find?_cons_of_pos t hx] at h
      cases h
      rw [List.eraseP_cons_of_pos hx]
    · rw [List.find?_cons_of_neg t hx] at h
      rw [List.eraseP_cons_of_neg hx]
      exact ((ih a h).cons x).trans (List.Perm.swap a x _)

theorem length_eraseP_of_find? {α : Type} (p : α → Bool) (l : List α) (a : α)
    (h : l.find? p = some a) : (l.eraseP p).length + 1 = l.length := by
  have hm : a ∈ l := List.mem_of_find?_eq_some h
  have hp : p a := List.find?_some h
  rw [List.length_eraseP_of_mem hm hp]
  have : 1 ≤ l.length := List.length_pos.mpr (List.ne_nil_of_mem hm)
  omega

theorem keys_eraseP (dq : List GoEntry) (k : GoValue) :
    (dq.eraseP (fun e => e.key == k)).map (fun e => e.key) =
      (dq.map (fun e => e.key)).erase k := by
  rw [List.erase_eq_eraseP', List.eraseP_map]
  rfl

theorem find?_key_of_mem (dq : List GoEntry) (k : GoValue)
    (h : k ∈ dq.map (fun e => e.key)) :
    ∃ e, dq.find? (fun e => e.key == k) = some e ∧ e.key = k := by
  obtain ⟨e₀, he₀, hk⟩ := List.mem_map.mp h
  have : (dq.find? (fun e => e.key == k)).isSome :=
    List.find?_isSome.mpr ⟨e₀, he₀, by simp [hk]⟩
  obtain ⟨e, he⟩ := Option.isSome_iff_exists.mp this
  refine ⟨e, he, ?_⟩
  have := List.find?_some he
  simpa using this

/-- Entry update through the map's node pointer preserves the key field. -/
theorem updF_key (k v : GoValue) (newExp : Option Int) (e : GoEntry) :
    (if e.key == k then { e with value := v, expiresAt := newExp } else e).key = e.key := by
  by_cases h : e.key == k <;> simp [h]

/-- Characterization of the `Set` update-in-place path: when the key is in
the index map of a well-formed cache, the in-memory transition rewrites the
unique node with this key and moves it to the front; the index map is
untouched. -/
theorem setCore_of_contains (kv : OpenCache) (k v : GoValue) (ttl : Option Int)
    (now : Int)
    (hperm : List.Perm kv.cache (kv.lruDeque.map (fun e => e.key)))
    (hnd : (kv.lruDeque.map (fun e => e.key)).Nodup)
    (hmem : kv.cache.contains k = true) :
    setCore kv k v ttl now =
      { kv with lruDeque :=
          ⟨k, v, ttl.map (fun d => now + d)⟩ ::
            kv.lruDeque.eraseP (fun e => e.key == k) } := by
  have hkc : k ∈ kv.cache := List.elem_iff.mp hmem
  have hk : k ∈ kv.lruDeque.map (fun e => e.key) := hperm.mem_iff.mp hkc
  obtain ⟨e₀, hfind, hke⟩ := find?_key_of_mem kv.lruDeque k hk
  set newExp : Option Int := ttl.map (fun d => now + d) with hne
  set updF : GoEntry → GoEntry :=
    fun e => if e.key == k then { e with value := v, expiresAt := newExp } else e with hupdF
  have hpred : ((fun e : GoEntry => e.key == k) ∘ updF) = fun e : GoEntry => e.key == k := by
    funext e
    show ((updF e).key == k) = (e.key == k)
    simp only [hupdF]
    rw [updF_key k v newExp e]
  have hfind' : (kv.lruDeque.map updF).find? (fun e => e.key == k) = some (updF e₀) := by
    rw [List.find?_map, hpred, hfind]
    rfl
  have herase : (kv.lruDeque.map updF).eraseP (fun e => e.key == k) =
      kv.lruDeque.eraseP (fun e => e.key == k) := by
    rw [List.eraseP_map, hpred]
    have hnk : ∀ e ∈ kv.lruDeque.eraseP (fun e => e.key == k), e.key ≠ k := by
      intro e he hek
      have : e.key ∈ (kv.lruDeque.eraseP (fun e => e.key == k)).map (fun e => e.key) :=
        List.mem_map_of_mem _ he
      rw [keys_eraseP] at this
      rw [hek] at this
      exact (hnd.mem_erase_iff.mp this).1 rfl
    have hid : ∀ e ∈ kv.lruDeque.eraseP (fun e => e.key == k), updF e = id e := by
      intro e he
      simp only [hupdF, id_eq]
      rw [if_neg]
      simp [hnk e he]
    rw [List.map_congr_left hid, List.map_id]
  have hupde : updF e₀ = ⟨k, v, newExp⟩ := by
    simp only [hupdF, hke]
    simp
  unfold setCore
  simp only [hmem, if_true]
  rw [show moveToFront k (kv.lruDeque.map updF) =
        updF e₀ :: (kv.lruDeque.map updF).eraseP (fun e => e.key == k) by
      unfold moveToFront
      rw [hfind']]
  rw [herase, hupde]

/-- On a persistent cache and a string key, `Set` performs the in-memory
transition and then appends the serialized record. -/
theorem Set_persistent_string (kv : OpenCache) (h : kv.persistent = true)
    (s : String) (v : GoValue) (ttl : Option Int) (now : Int) (io : Bool) :
    Set kv (.strV s) v ttl now io =
      .ok (true,
           (AppendToLog (setCore kv (.strV s) v ttl now)
             ⟨"SET", s, v, match ttl with | some d => Int.tdiv d 1000000 | none => 0⟩ io).1,
           (AppendToLog (setCore kv (.strV s) v ttl now)
             ⟨"SET", s, v, match ttl with | some d => Int.tdiv d 1000000 | none => 0⟩ io).2.toList) := by
  unfold Set
  simp [ValidateKey, setCore_persistent, h, makeLogEntry]

/-- On a persistent cache, `Set` with a valid non-string key panics in
`makeLogEntry` after mutating the in-memory state. -/
theorem Set_persistent_nonstring (kv : OpenCache) (h : kv.persistent = true)
    (key : GoValue) (hk : ValidateKey key = none)
    (hns : ∀ s, key ≠ .strV s) (v : GoValue) (ttl : Option Int) (now : Int) (io : Bool) :
    Set kv key v ttl now io = .error "interface conversion: interface is not string" := by
  unfold Set
  rw [hk]
  cases key with
  | strV s => exact absurd rfl (hns s)
  | nilV => simp [ValidateKey] at hk
  | sliceV xs => simp [ValidateKey] at hk
  | jsonArrV xs => simp [ValidateKey] at hk
  | boolV b => simp [setCore_persistent, h, makeLogEntry]
  | intV n => simp [setCore_persistent, h, makeLogEntry]
  | floatV n => simp [setCore_persistent, h, makeLogEntry]

/-- C7: update in place without eviction. For every key already present in a
well-formed cache, a completed `Set` call returns `true`, replaces the
stored value, recomputes the absolute expiry from `now` when a TTL is given
and clears it otherwise, and moves the node to the front of the recency
list; the index map, the recency-list length and `Len` are unchanged - no
entry is evicted, even when the cache is at capacity. -/
theorem set_update_in_place (kv : OpenCache) (key v : GoValue) (ttl : Option Int)
    (now : Int) (io : Bool) (hInv : Inv kv) (hv : ValidateKey key = none)
    (hmem : kv.cache.contains key = true)
    (b : Bool) (kv' : OpenCache) (recs : List LogEntry)
    (hok : Set kv key v ttl now io = .ok (b, kv', recs)) :
    b = true ∧
    kv'.cache = kv.cache ∧
    kv'.lruDeque =
      ⟨key, v, ttl.map (fun d => now + d)⟩ ::
        kv.lruDeque.eraseP (fun e => e.key == key) ∧
    kv'.lruDeque.length = kv.lruDeque.length ∧
    Len kv' = Len kv := by
  obtain ⟨hperm, hnd, _, _⟩ := hInv
  have hsc := setCore_of_contains kv key v ttl now hperm hnd hmem
  have hk : key ∈ kv.lruDeque.map (fun e => e.key) :=
    hperm.mem_iff.mp (List.elem_iff.mp hmem)
  obtain ⟨e₀, hfind, _⟩ := find?_key_of_mem kv.lruDeque key hk
  have hlen : (kv.lruDeque.eraseP (fun e => e.key == key)).length + 1 =
      kv.lruDeque.length := length_eraseP_of_find? _ _ _ hfind
  have main : kv'.cache = kv.cache ∧
      kv'.lruDeque = ⟨key, v, ttl.map (fun d => now + d)⟩ ::
        kv.lruDeque.eraseP (fun e => e.key == key) ∧ b = true := by
    cases hp : kv.persistent with
    | false =>
      rw [Set_not_persistent kv hp key v ttl now io hv] at hok
      simp only [Except.ok.injEq, Prod.mk.injEq] at hok
      obtain ⟨hb, hkv, -⟩ := hok
      rw [← hkv, hsc]
      exact ⟨rfl, rfl, hb.symm⟩
    | true =>
      by_cases hstr : ∃ s, key = GoValue.strV s
      · obtain ⟨s, rfl⟩ := hstr
        rw [Set_persistent_string kv hp s v ttl now io] at hok
        simp only [Except.ok.injEq, Prod.mk.injEq] at hok
        obtain ⟨hb, hkv, -⟩ := hok
        rw [← hkv, AppendToLog_cache, AppendToLog_lruDeque, hsc]
        exact ⟨rfl, rfl, hb.symm⟩
      · rw [Set_persistent_nonstring kv hp key hv
          (fun s hs => hstr ⟨s, hs⟩) v ttl now io] at hok
        exact absurd hok (by simp)
  obtain ⟨hc, hd, hb⟩ := main
  refine ⟨hb, hc, hd, ?_, ?_⟩
  · rw [hd]
    simpa using hlen
  · unfold Len
    rw [hc]

theorem set_update_in_place_witness :
    true = true ∧
    (⟨[GoValue.strV "b", GoValue.strV "a"],
      [⟨GoValue.strV "b", GoValue.intV 7, some 110⟩, ⟨GoValue.strV "a", GoValue.intV 1, none⟩],
      2, false, ""⟩ : OpenCache).cache =
      (⟨[GoValue.strV "b", GoValue.strV "a"],
        [⟨GoValue.strV "a", GoValue.intV 1, none⟩, ⟨GoValue.strV "b", GoValue.intV 2, some 9⟩],
        2, false, ""⟩ : OpenCache).cache ∧
    (⟨[GoValue.strV "b", GoValue.strV "a"],
      [⟨GoValue.strV "b", GoValue.intV 7, some 110⟩, ⟨GoValue.strV "a", GoValue.intV 1, none⟩],
      2, false, ""⟩ : OpenCache).lruDeque =
      ⟨GoValue.strV "b", GoValue.intV 7, (some (10 : Int)).map (fun d => 100 + d)⟩ ::
        (⟨[GoValue.strV "b", GoValue.strV "a"],
          [⟨GoValue.strV "a", GoValue.intV 1, none⟩, ⟨GoValue.strV "b", GoValue.intV 2, some 9⟩],
          2, false, ""⟩ : OpenCache).lruDeque.eraseP (fun e => e.key == GoValue.strV "b") ∧
    (⟨[GoValue.strV "b", GoValue.strV "a"],
      [⟨GoValue.strV "b", GoValue.intV 7, some 110⟩, ⟨GoValue.strV "a", GoValue.intV 1, none⟩],
      2, false, ""⟩ : OpenCache).lruDeque.length =
      (⟨[GoValue.strV "b", GoValue.strV "a"],
        [⟨GoValue.strV "a", GoValue.intV 1, none⟩, ⟨GoValue.strV "b", GoValue.intV 2, some 9⟩],
        2, false, ""⟩ : OpenCache).lruDeque.length ∧
    Len ⟨[GoValue.strV "b", GoValue.strV "a"],
      [⟨GoValue.strV "b", GoValue.intV 7, some 110⟩, ⟨GoValue.strV "a", GoValue.intV 1, none⟩],
      2, false, ""⟩ =
      Len ⟨[GoValue.strV "b", GoValue.strV "a"],
        [⟨GoValue.strV "a", GoValue.intV 1, none⟩, ⟨GoValue.strV "b", GoValue.intV 2, some 9⟩],
        2, false, ""⟩ :=
  set_update_in_place
    ⟨[GoValue.strV "b", GoValue.strV "a"],
     [⟨GoValue.strV "a", GoValue.intV 1, none⟩, ⟨GoValue.strV "b", GoValue.intV 2, some 9⟩],
     2, false, ""⟩
    (GoValue.strV "b") (GoValue.intV 7) (some 10) 100 false
    ⟨by decide, by decide, by decide, by decide⟩ (by decide) (by decide)
    true
    ⟨[GoValue.strV "b", GoValue.strV "a"],
     [⟨GoValue.strV "b", GoValue.intV 7, some 110⟩, ⟨GoValue.strV "a", GoValue.intV 1, none⟩],
     2, false, ""⟩
    [] (by decide)

/-- After the in-memory `Set` transition on a well-formed cache, the entry
for the written key sits at the front of the recency list with the value
just written and an absolute expiry computed from `now` - on the update
path, the insert path and the eviction path alike. -/
theorem setCore_head? (kv : OpenCache) (k v : GoValue) (ttl : Option Int) (now : Int)
    (hperm : List.Perm kv.cache (kv.lruDeque.map (fun e => e.key)))
    (hnd : (kv.lruDeque.map (fun e => e.key)).Nodup) :
    (setCore kv k v ttl now).lruDeque.head? =
      some ⟨k, v, ttl.map (fun d => now + d)⟩ := by
  by_cases hmem : kv.cache.contains k = true
  · rw [setCore_of_contains kv k v ttl now hperm hnd hmem]
    rfl
  · unfold setCore
    simp only [Bool.not_eq_true] at hmem
    simp only [hmem, Bool.false_eq_true, if_false]
    split
    · split <;> rfl
    · rfl

/-- C10 as stated fails on the code for hand-written records: the replay TTL
is computed by the wrapping int64 multiplication
`time.Duration(ttl_ms) * time.Millisecond`. The parseable record
`SET k "v"` with `ttl_ms = 10^13 > 0`, replayed at time 0 into a fresh
cache, installs the entry with absolute expiry -8446744073709551616 ns -
the wrapped value of 10^19 ns, a time in the past - and not 0 + 10^13
milliseconds as the claim states. -/
theorem replay_ttl_overflow_counterexample :
    (0 : Int) < 10000000000000 ∧
    ReplayLog (NewOpenCache 1 false "")
        (some [some ⟨"SET", "k", .strV "v", 10000000000000⟩]) [0] none =
      .ok (⟨[.strV "k"],
            [⟨.strV "k", .strV "v", some (-8446744073709551616)⟩], 1, false, ""⟩,
           [], none) ∧
    some (-8446744073709551616 : Int) ≠
      some ((0 : Int) + 10000000000000 * 1000000) ∧
    (-8446744073709551616 : Int) < 0 := by
  refine ⟨?_, ?_, ?_, ?_⟩ <;> decide

/-- C10 (amended): replay reconstructs TTLs relative to replay time, within
the int64 range. Replaying a `SET` record with `0 < ttl_ms = T` at time
`now` installs the entry with absolute expiry `now + T` milliseconds,
provided `T <= 9223372036854` - the bound below which the int64 product
`T * 10^6` ns cannot overflow, and also the largest value
`Duration.Milliseconds` can write, so every record produced by the logger
itself is covered; a larger, hand-written `ttl_ms` wraps (see the
counterexample). Replaying a record with `ttl_ms <= 0` installs the entry
with no expiry at all. Moreover a `Set` whose TTL is positive but shorter
than one millisecond produces a record with `ttl_ms = 0` (serialized
without a `ttl_ms` field, as the field carries `omitempty`), hence replays
with no expiry. -/
theorem replay_reconstructs_ttl (kv : OpenCache)
    (hperm : List.Perm kv.cache (kv.lruDeque.map (fun e => e.key)))
    (hnd : (kv.lruDeque.map (fun e => e.key)).Nodup)
    (k : String) (v : GoValue) (T : Int) (now : Int)
    (hTbound : T ≤ 9223372036854) :
    (∃ kv' err,
       ReplayLog kv (some [some ⟨"SET", k, v, T⟩]) [now] none = .ok (kv', [], err) ∧
       kv'.lruDeque.head? =
         some ⟨.strV k, v, if 0 < T then some (now + T * 1000000) else none⟩) ∧
    (∀ (d : Int), 0 < d → d < 1000000 →
       makeLogEntry "SET" (.strV k) v (some d) = .ok ⟨"SET", k, v, 0⟩) := by
  constructor
  · have hS := Set_not_persistent { kv with persistent := false } rfl (.strV k) v
      (if (T : Int) > 0 then some (wrap64 (T * 1000000)) else none) now true rfl
    have hstep : replayStep { kv with persistent := false } (some ⟨"SET", k, v, T⟩) now =
        .ok (setCore { kv with persistent := false } (.strV k) v
              (if (T : Int) > 0 then some (wrap64 (T * 1000000)) else none) now, []) := by
      simp [replayStep, hS]
    have hrun : replayLines { kv with persistent := false } [some ⟨"SET", k, v, T⟩] [now] =
        .ok (setCore { kv with persistent := false } (.strV k) v
              (if (T : Int) > 0 then some (wrap64 (T * 1000000)) else none) now, []) := by
      simp only [replayLines]
      rw [show List.headD [now] 0 = now from rfl, hstep]
      rfl
    refine ⟨{ setCore { kv with persistent := false } (.strV k) v
                (if (T : Int) > 0 then some (wrap64 (T * 1000000)) else none) now
              with persistent := kv.persistent },
      none, ?_, ?_⟩
    · simp only [ReplayLog]
      rw [hrun]
    · show (setCore { kv with persistent := false } (.strV k) v
          (if (T : Int) > 0 then some (wrap64 (T * 1000000)) else none)
          now).lruDeque.head? = _
      rw [setCore_head? { kv with persistent := false } (.strV k) v
          (if (T : Int) > 0 then some (wrap64 (T * 1000000)) else none) now hperm hnd]
      by_cases hT : 0 < T
      · simp [hT, wrap64_eq_self (T * 1000000) (by omega) (by omega)]
      · simp [hT]
  · intro d h1 h2
    have hdiv : Int.tdiv d 1000000 = 0 := by
      rw [Int.tdiv_eq_ediv (le_of_lt h1) (by norm_num)]
      exact Int.ediv_eq_zero_of_lt (le_of_lt h1) h2
    simp [makeLogEntry, hdiv]

theorem replay_reconstructs_ttl_witness :
    (5 : Int) ≤ 9223372036854 ∧
    ((∃ kv' err,
       ReplayLog (NewOpenCache 2 true "p")
           (some [some ⟨"SET", "k", GoValue.strV "v", 5⟩]) [30] none =
         .ok (kv', [], err) ∧
       kv'.lruDeque.head? =
         some ⟨.strV "k", GoValue.strV "v",
               if 0 < (5 : Int) then some ((30 : Int) + 5 * 1000000) else none⟩) ∧
    (∀ (d : Int), 0 < d → d < 1000000 →
       makeLogEntry "SET" (.strV "k") (GoValue.strV "v") (some d) =
         .ok ⟨"SET", "k", GoValue.strV "v", 0⟩)) :=
  ⟨by decide,
   replay_reconstructs_ttl (NewOpenCache 2 true "p") (by decide) (by decide)
     "k" (GoValue.strV "v") 5 30 (by decide)⟩

/-- C3: lazy TTL expiration in `Get`. For a key present in a well-formed
cache whose entry has an expiry in the past at call time, `Get` removes the
entry from both the index map and the recency list and returns not-found;
for a present key whose entry has no expiry or an expiry still in the
future, `Get` returns the stored value with `found = true` and moves the
entry to the front of the recency list. -/
theorem get_lazy_expiration (kv : OpenCache) (key : GoValue) (now : Int)
    (ent : GoEntry) (hInv : Inv kv) (hv : ValidateKey key = none)
    (hmem : kv.cache.contains key = true)
    (hfind : kv.lruDeque.find? (fun e => e.key == key) = some ent) :
    (∀ t, ent.expiresAt = some t → t < now →
       (Get kv key now).1 = (none, false) ∧
       (Get kv key now).2.cache.contains key = false ∧
       ((Get kv key now).2.lruDeque.map (fun e => e.key)).contains key = false ∧
       (Get kv key now).2.lruDeque.length + 1 = kv.lruDeque.length ∧
       (Get kv key now).2.cache.length + 1 = kv.cache.length) ∧
    ((ent.expiresAt = none ∨ ∃ t, ent.expiresAt = some t ∧ now < t) →
       (Get kv key now).1 = (some ent.value, true) ∧
       (Get kv key now).2.lruDeque.head? = some ent ∧
       (Get kv key now).2.lruDeque.length = kv.lruDeque.length ∧
       (Get kv key now).2.cache = kv.cache) := by
  obtain ⟨hperm, hnd, -, -⟩ := hInv
  have hke : ent.key = key := by
    have := List.find?_some hfind
    simpa using this
  have hcnd : kv.cache.Nodup := hperm.symm.nodup hnd
  have hkc : key ∈ kv.cache := List.elem_iff.mp hmem
  constructor
  · intro t hexp hlt
    have hexpired : expired ent now = true := by
      unfold expired
      rw [hexp]
      simpa using hlt
    have hGet : Get kv key now =
        ((none, false),
         { kv with cache := kv.cache.erase ent.key,
                   lruDeque := kv.lruDeque.eraseP (fun e => e.key == key) }) := by
      simp [Get, hv, hkc, hfind, hexpired]
    rw [hGet]
    refine ⟨rfl, ?_, ?_, ?_, ?_⟩
    · show (kv.cache.erase ent.key).contains key = false
      rw [hke]
      refine Bool.eq_false_iff.mpr ?_
      intro htrue
      exact (hcnd.mem_erase_iff.mp (List.elem_iff.mp htrue)).1 rfl
    · show ((kv.lruDeque.eraseP (fun e => e.key == key)).map (fun e => e.key)).contains key = false
      rw [keys_eraseP]
      refine Bool.eq_false_iff.mpr ?_
      intro htrue
      exact (hnd.mem_erase_iff.mp (List.elem_iff.mp htrue)).1 rfl
    · exact length_eraseP_of_find? _ _ _ hfind
    · show (kv.cache.erase ent.key).length + 1 = kv.cache.length
      rw [hke, List.length_erase_of_mem hkc]
      have : 1 ≤ kv.cache.length := List.length_pos.mpr (List.ne_nil_of_mem hkc)
      omega
  · intro hlive
    have hexpired : expired ent now = false := by
      unfold expired
      rcases hlive with h | ⟨t, ht, hlt⟩
      · rw [h]
      · rw [ht]
        exact decide_eq_false (fun hgt => lt_asymm hgt hlt)
    have hmtf : moveToFront key kv.lruDeque =
        ent :: kv.lruDeque.eraseP (fun e => e.key == key) := by
      unfold moveToFront
      rw [hfind]
    have hGet : Get kv key now =
        ((some ent.value, true),
         { kv with lruDeque := moveToFront key kv.lruDeque }) := by
      simp [Get, hv, hkc, hfind, hexpired]
    rw [hGet]
    refine ⟨rfl, ?_, ?_, rfl⟩
    · show (moveToFront key kv.lruDeque).head? = some ent
      rw [hmtf]
      rfl
    · show (moveToFront key kv.lruDeque).length = kv.lruDeque.length
      rw [hmtf]
      simpa using length_eraseP_of_find? _ _ _ hfind

theorem get_lazy_expiration_witness :
    (∀ t, (⟨GoValue.strV "a", GoValue.intV 1, some 10⟩ : GoEntry).expiresAt = some t →
       t < 20 →
       (Get ⟨[GoValue.strV "a"], [⟨GoValue.strV "a", GoValue.intV 1, some 10⟩], 2, false, ""⟩
          (GoValue.strV "a") 20).1 = (none, false) ∧
       (Get ⟨[GoValue.strV "a"], [⟨GoValue.strV "a", GoValue.intV 1, some 10⟩], 2, false, ""⟩
          (GoValue.strV "a") 20).2.cache.contains (GoValue.strV "a") = false ∧
       ((Get ⟨[GoValue.strV "a"], [⟨GoValue.strV "a", GoValue.intV 1, some 10⟩], 2, false, ""⟩
          (GoValue.strV "a") 20).2.lruDeque.map (fun e => e.key)).contains (GoValue.strV "a") = false ∧
       (Get ⟨[GoValue.strV "a"], [⟨GoValue.strV "a", GoValue.intV 1, some 10⟩], 2, false, ""⟩
          (GoValue.strV "a") 20).2.lruDeque.length + 1 =
         (⟨[GoValue.strV "a"], [⟨GoValue.strV "a", GoValue.intV 1, some 10⟩], 2, false, ""⟩ :
           OpenCache).lruDeque.length ∧
       (Get ⟨[GoValue.strV "a"], [⟨GoValue.strV "a", GoValue.intV 1, some 10⟩], 2, false, ""⟩
          (GoValue.strV "a") 20).2.cache.length + 1 =
         (⟨[GoValue.strV "a"], [⟨GoValue.strV "a", GoValue.intV 1, some 10⟩], 2, false, ""⟩ :
           OpenCache).cache.length) ∧
    ((⟨GoValue.strV "a", GoValue.intV 1, some 10⟩ : GoEntry).expiresAt = none ∨
       (∃ t, (⟨GoValue.strV "a", GoValue.intV 1, some 10⟩ : GoEntry).expiresAt = some t ∧
          (20 : Int) < t) →
       (Get ⟨[GoValue.strV "a"], [⟨GoValue.strV "a", GoValue.intV 1, some 10⟩], 2, false, ""⟩
          (GoValue.strV "a") 20).1 =
         (some (⟨GoValue.strV "a", GoValue.intV 1, some 10⟩ : GoEntry).value, true) ∧
       (Get ⟨[GoValue.strV "a"], [⟨GoValue.strV "a", GoValue.intV 1, some 10⟩], 2, false, ""⟩
          (GoValue.strV "a") 20).2.lruDeque.head? =
         some ⟨GoValue.strV "a", GoValue.intV 1, some 10⟩ ∧
       (Get ⟨[GoValue.strV "a"], [⟨GoValue.strV "a", GoValue.intV 1, some 10⟩], 2, false, ""⟩
          (GoValue.strV "a") 20).2.lruDeque.length =
         (⟨[GoValue.strV "a"], [⟨GoValue.strV "a", GoValue.intV 1, some 10⟩], 2, false, ""⟩ :
           OpenCache).lruDeque.length ∧
       (Get ⟨[GoValue.strV "a"], [⟨GoValue.strV "a", GoValue.intV 1, some 10⟩], 2, false, ""⟩
          (GoValue.strV "a") 20).2.cache =
         (⟨[GoValue.strV "a"], [⟨GoValue.strV "a", GoValue.intV 1, some 10⟩], 2, false, ""⟩ :
           OpenCache).cache) :=
  get_lazy_expiration
    ⟨[GoValue.strV "a"], [⟨GoValue.strV "a", GoValue.intV 1, some 10⟩], 2, false, ""⟩
    (GoValue.strV "a") 20 ⟨GoValue.strV "a", GoValue.intV 1, some 10⟩
    ⟨by decide, by decide, by decide, by decide⟩ (by decide) (by decide) (by decide)

/- Preservation of the structural invariant by every public operation. -/

theorem nodup_getLast?_erase {α : Type} [DecidableEq α] :
    ∀ (l : List α), l.Nodup → ∀ a, l.getLast? = some a → l.erase a = l.dropLast := by
  intro l
  induction l with
  | nil => intro _ a h; simp at h
  | cons x t ih =>
    intro hnd a h
    cases t with
    | nil =>
      have hxa : x = a := by simpa using h
      subst hxa
      simp
    | cons y u =>
      have hgl : (y :: u).getLast? = some a := h
      have hmem : a ∈ y :: u := List.mem_of_mem_getLast? hgl
      have hxa : x ≠ a := fun hxa => (List.nodup_cons.mp hnd).1 (hxa ▸ hmem)
      rw [List.erase_cons_tail (by simpa using hxa)]
      rw [ih (List.nodup_cons.mp hnd).2 a hgl]
      rfl

theorem not_mem_keys_of_not_contains (kv : OpenCache) (key : GoValue)
    (hperm : List.Perm kv.cache (kv.lruDeque.map (fun e => e.key)))
    (hc : ¬ kv.cache.contains key = true) :
    key ∉ kv.lruDeque.map (fun e => e.key) := by
  intro hmem
  exact hc (List.elem_iff.mpr (hperm.mem_iff.mpr hmem))

theorem Inv_AppendToLog (kv : OpenCache) (e : LogEntry) (io : Bool) (h : Inv kv) :
    Inv (AppendToLog kv e io).1 := by
  unfold Inv
  rw [AppendToLog_cache, AppendToLog_lruDeque, AppendToLog_capacity]
  exact h

theorem Inv_setCore (kv : OpenCache) (key v : GoValue) (ttl : Option Int) (now : Int)
    (h : Inv kv) : Inv (setCore kv key v ttl now) := by
  obtain ⟨hperm, hnd, hlen, hcap⟩ := h
  by_cases hc : kv.cache.contains key = true
  · rw [setCore_of_contains kv key v ttl now hperm hnd hc]
    have hk : key ∈ kv.lruDeque.map (fun e => e.key) :=
      hperm.mem_iff.mp (List.elem_iff.mp hc)
    obtain ⟨e₀, hfind, -⟩ := find?_key_of_mem kv.lruDeque key hk
    have hkeys : ((⟨key, v, ttl.map (fun d => now + d)⟩ : GoEntry) ::
        kv.lruDeque.eraseP (fun e => e.key == key)).map (fun e => e.key) =
        key :: (kv.lruDeque.map (fun e => e.key)).erase key := by
      simp only [List.map_cons, keys_eraseP]
    refine ⟨?_, ?_, ?_, hcap⟩
    · show List.Perm kv.cache _
      rw [hkeys]
      exact (hperm.trans (List.perm_cons_erase hk)).trans (List.Perm.refl _)
    · rw [hkeys]
      exact List.nodup_cons.mpr
        ⟨fun hm => (hnd.mem_erase_iff.mp hm).1 rfl, hnd.erase key⟩
    · show ((kv.lruDeque.eraseP (fun e => e.key == key)).length + 1 : Int) ≤ kv.capacity
      have := length_eraseP_of_find? (fun e => e.key == key) kv.lruDeque e₀ hfind
      omega
  · have hknotmem : key ∉ kv.lruDeque.map (fun e => e.key) :=
      not_mem_keys_of_not_contains kv key hperm hc
    have hkcache : key ∉ kv.cache := fun hm => hc (List.elem_iff.mpr hm)
    unfold setCore
    simp only [Bool.not_eq_true] at hc
    simp only [hc, Bool.false_eq_true, if_false]
    by_cases hfull : (kv.lruDeque.length : Int) ≥ kv.capacity
    · rw [if_pos hfull]
      cases hlast : kv.lruDeque.getLast? with
      | none =>
        have : kv.lruDeque = [] := by
          cases hdq : kv.lruDeque with
          | nil => rfl
          | cons z zs => rw [hdq] at hlast; simp [List.getLast?] at hlast
        rw [this] at hfull
        simp at hfull
        omega
      | some back =>
        have hbmem : back ∈ kv.lruDeque := List.mem_of_mem_getLast? hlast
        have hklast : (kv.lruDeque.map (fun e => e.key)).getLast? = some back.key := by
          rw [List.getLast?_map, hlast]
          rfl
        have herase : (kv.lruDeque.map (fun e => e.key)).erase back.key =
            (kv.lruDeque.map (fun e => e.key)).dropLast :=
          nodup_getLast?_erase _ hnd back.key hklast
        have hdlkeys : kv.lruDeque.dropLast.map (fun e => e.key) =
            (kv.lruDeque.map (fun e => e.key)).dropLast :=
          List.map_dropLast _ _
        have hnodupdl : ((kv.lruDeque.map (fun e => e.key)).dropLast).Nodup :=
          List.Sublist.nodup (List.dropLast_sublist _) hnd
        have hne : kv.lruDeque ≠ [] := List.ne_nil_of_mem hbmem
        have hlen1 : 1 ≤ kv.lruDeque.length := List.length_pos.mpr hne
        refine ⟨?_, ?_, ?_, hcap⟩
        · show List.Perm (key :: kv.cache.erase back.key)
            ((⟨key, v, ttl.map (fun d => now + d)⟩ :: kv.lruDeque.dropLast).map
              (fun e => e.key))
          simp only [List.map_cons, hdlkeys]
          rw [← herase]
          exact (hperm.erase back.key).cons key
        · simp only [List.map_cons, hdlkeys]
          refine List.nodup_cons.mpr ⟨?_, hnodupdl⟩
          intro hm
          exact hknotmem (List.Sublist.mem hm (List.dropLast_sublist _))
        · show ((kv.lruDeque.dropLast.length + 1 : Nat) : Int) ≤ kv.capacity
          rw [List.length_dropLast]
          push_cast
          omega
    · rw [if_neg hfull]
      refine ⟨?_, ?_, ?_, hcap⟩
      · exact hperm.cons key
      · exact List.nodup_cons.mpr ⟨hknotmem, hnd⟩
      · show ((kv.lruDeque.length + 1 : Nat) : Int) ≤ kv.capacity
        push_cast
        omega

theorem Inv_delCore (kv : OpenCache) (key : GoValue) (h : Inv kv) :
    Inv (delCore kv key) := by
  obtain ⟨hperm, hnd, hlen, hcap⟩ := h
  unfold delCore
  refine ⟨?_, ?_, ?_, hcap⟩
  · show List.Perm (kv.cache.erase key) _
    rw [keys_eraseP]
    exact hperm.erase key
  · rw [keys_eraseP]
    exact hnd.erase key
  · show ((kv.lruDeque.eraseP (fun e => e.key == key)).length : Int) ≤ kv.capacity
    have := @List.length_eraseP_le _ (fun e => e.key == key) kv.lruDeque
    omega

theorem Inv_Get (kv : OpenCache) (key : GoValue) (now : Int) (h : Inv kv) :
    Inv (Get kv key now).2 ∧ (Get kv key now).2.capacity = kv.capacity := by
  obtain ⟨hperm, hnd, hlen, hcap⟩ := h
  by_cases hv : (ValidateKey key).isSome = true
  · have : Get kv key now = ((none, false), kv) := by simp [Get, hv]
    rw [this]
    exact ⟨⟨hperm, hnd, hlen, hcap⟩, rfl⟩
  · have hv' : ¬ (ValidateKey key).isSome = true := hv
    by_cases hc : key ∈ kv.cache
    · cases hf : kv.lruDeque.find? (fun e => e.key == key) with
      | none =>
        have : Get kv key now = ((none, false), kv) := by simp [Get, hv', hc, hf]
        rw [this]
        exact ⟨⟨hperm, hnd, hlen, hcap⟩, rfl⟩
      | some ent =>
        have hke : ent.key = key := by simpa using List.find?_some hf
        by_cases hexp : expired ent now = true
        · have : Get kv key now =
              ((none, false),
               { kv with cache := kv.cache.erase ent.key,
                         lruDeque := kv.lruDeque.eraseP (fun e => e.key == key) }) := by
            simp [Get, hv', hc, hf, hexp]
          rw [this]
          refine ⟨⟨?_, ?_, ?_, hcap⟩, rfl⟩
          · show List.Perm (kv.cache.erase ent.key) _
            rw [keys_eraseP, hke]
            exact hperm.erase key
          · rw [keys_eraseP]
            exact hnd.erase key
          · show ((kv.lruDeque.eraseP (fun e => e.key == key)).length : Int) ≤ kv.capacity
            have := @List.length_eraseP_le _ (fun e => e.key == key) kv.lruDeque
            omega
        · have hmtf : moveToFront key kv.lruDeque =
              ent :: kv.lruDeque.eraseP (fun e => e.key == key) := by
            unfold moveToFront
            rw [hf]
          have : Get kv key now =
              ((some ent.value, true),
               { kv with lruDeque := moveToFront key kv.lruDeque }) := by
            simp [Get, hv', hc, hf, hexp]
          rw [this]
          have hk : key ∈ kv.lruDeque.map (fun e => e.key) :=
            hperm.mem_iff.mp hc
          have hlen' := length_eraseP_of_find? (fun e => e.key == key) kv.lruDeque ent hf
          have hkeys : (moveToFront key kv.lruDeque).map (fun e => e.key) =
              key :: (kv.lruDeque.map (fun e => e.key)).erase key := by
            rw [hmtf]
            simp only [List.map_cons, keys_eraseP, hke]
          refine ⟨⟨?_, ?_, ?_, hcap⟩, rfl⟩
          · show List.Perm kv.cache ((moveToFront key kv.lruDeque).map (fun e => e.key))
            rw [hkeys]
            exact hperm.trans (List.perm_cons_erase hk)
          · show ((moveToFront key kv.lruDeque).map (fun e => e.key)).Nodup
            rw [hkeys]
            exact List.nodup_cons.mpr
              ⟨fun hm => (hnd.mem_erase_iff.mp hm).1 rfl, hnd.erase key⟩
          · show ((moveToFront key kv.lruDeque).length : Int) ≤ kv.capacity
            rw [hmtf]
            show (((kv.lruDeque.eraseP (fun e => e.key == key)).length + 1 : Nat) : Int) ≤
              kv.capacity
            omega
    · have : Get kv key now = ((none, false), kv) := by simp [Get, hv', hc]
      rw [this]
      exact ⟨⟨hperm, hnd, hlen, hcap⟩, rfl⟩

theorem isSome_false_eq_none (o : Option String) (h : ¬ o.isSome = true) : o = none := by
  cases o with
  | none => rfl
  | some m => rw [Option.isSome_some] at h; exact absurd rfl h

theorem Inv_Set (kv : OpenCache) (k v : GoValue) (ttl : Option Int) (now : Int)
    (io : Bool) (b : Bool) (kv' : OpenCache) (recs : List LogEntry)
    (hok : Set kv k v ttl now io = .ok (b, kv', recs)) (h : Inv kv) :
    Inv kv' ∧ kv'.capacity = kv.capacity := by
  by_cases hv : (ValidateKey k).isSome = true
  · unfold Set at hok
    rw [if_pos hv] at hok
    simp only [Except.ok.injEq, Prod.mk.injEq] at hok
    obtain ⟨-, hkv, -⟩ := hok
    rw [← hkv]
    exact ⟨h, rfl⟩
  · have hv' : ValidateKey k = none := isSome_false_eq_none _ hv
    have hsc : Inv (setCore kv k v ttl now) := Inv_setCore kv k v ttl now h
    unfold Set at hok
    rw [hv'] at hok
    simp only [Option.isSome_none, Bool.false_eq_true, if_false] at hok
    by_cases hp : (setCore kv k v ttl now).persistent = true
    · rw [if_pos hp] at hok
      cases hm : makeLogEntry "SET" k v ttl with
      | error m => rw [hm] at hok; exact absurd hok (by simp)
      | ok r =>
        rw [hm] at hok
        simp only [Except.ok.injEq, Prod.mk.injEq] at hok
        obtain ⟨-, hkv, -⟩ := hok
        rw [← hkv]
        refine ⟨Inv_AppendToLog _ r io hsc, ?_⟩
        rw [AppendToLog_capacity, setCore_capacity]
    · rw [if_neg hp] at hok
      simp only [Except.ok.injEq, Prod.mk.injEq] at hok
      obtain ⟨-, hkv, -⟩ := hok
      rw [← hkv]
      exact ⟨hsc, setCore_capacity ..⟩

theorem Inv_Delete (kv : OpenCache) (k : GoValue) (io : Bool) (b : Bool)
    (kv' : OpenCache) (recs : List LogEntry)
    (hok : Delete kv k io = .ok (b, kv', recs)) (h : Inv kv) :
    Inv kv' ∧ kv'.capacity = kv.capacity := by
  by_cases hv : (ValidateKey k).isSome = true
  · unfold Delete at hok
    rw [if_pos hv] at hok
    simp only [Except.ok.injEq, Prod.mk.injEq] at hok
    obtain ⟨-, hkv, -⟩ := hok
    rw [← hkv]
    exact ⟨h, rfl⟩
  · have hv' : ValidateKey k = none := isSome_false_eq_none _ hv
    unfold Delete at hok
    rw [hv'] at hok
    simp only [Option.isSome_none, Bool.false_eq_true, if_false] at hok
    by_cases hc : kv.cache.contains k = true
    · rw [if_pos hc] at hok
      have hdc : Inv (delCore kv k) := Inv_delCore kv k h
      by_cases hp : (delCore kv k).persistent = true
      · rw [if_pos hp] at hok
        cases hm : makeLogEntry "DELETE" k .nilV none with
        | error m => rw [hm] at hok; exact absurd hok (by simp)
        | ok r =>
          rw [hm] at hok
          simp only [Except.ok.injEq, Prod.mk.injEq] at hok
          obtain ⟨-, hkv, -⟩ := hok
          rw [← hkv]
          exact ⟨Inv_AppendToLog _ r io hdc, by rw [AppendToLog_capacity]; rfl⟩
      · rw [if_neg hp] at hok
        simp only [Except.ok.injEq, Prod.mk.injEq] at hok
        obtain ⟨-, hkv, -⟩ := hok
        rw [← hkv]
        exact ⟨hdc, rfl⟩
    · rw [if_neg hc] at hok
      simp only [Except.ok.injEq, Prod.mk.injEq] at hok
      obtain ⟨-, hkv, -⟩ := hok
      rw [← hkv]
      exact ⟨h, rfl⟩

theorem Inv_applyOp (kv : OpenCache) (op : AnyOp) (h : Inv kv) :
    Inv (applyOp kv op) ∧ (applyOp kv op).capacity = kv.capacity := by
  cases op with
  | getA k now => exact Inv_Get kv k now h
  | setA k v ttl now io =>
    simp only [applyOp]
    cases hs : Set kv k v ttl now io with
    | error m => exact ⟨h, rfl⟩
    | ok r => exact Inv_Set kv k v ttl now io r.1 r.2.1 r.2.2 (by rw [hs]) h
  | delA k io =>
    simp only [applyOp]
    cases hs : Delete kv k io with
    | error m => exact ⟨h, rfl⟩
    | ok r => exact Inv_Delete kv k io r.1 r.2.1 r.2.2 (by rw [hs]) h

theorem Inv_runAll (ops : List AnyOp) :
    ∀ kv : OpenCache, Inv kv →
      Inv (runAll kv ops) ∧ (runAll kv ops).capacity = kv.capacity := by
  induction ops with
  | nil => intro kv h; exact ⟨h, rfl⟩
  | cons op rest ih =>
    intro kv h
    obtain ⟨h1, hc1⟩ := Inv_applyOp kv op h
    obtain ⟨h2, hc2⟩ := ih (applyOp kv op) h1
    refine ⟨h2, ?_⟩
    rw [show runAll kv (op :: rest) = runAll (applyOp kv op) rest from rfl, hc2, hc1]

theorem Inv_NewOpenCache (c : Int) (p : Bool) (lp : String) :
    Inv (NewOpenCache c p lp) := by
  unfold Inv NewOpenCache
  refine ⟨by simp, by simp, ?_, ?_⟩
  · show ((([] : List GoEntry).length : Nat) : Int) ≤ (if c < 1 then 1 else c)
    simp only [List.length_nil, Nat.cast_zero]
    split <;> omega
  · show (1 : Int) ≤ (if c < 1 then 1 else c)
    split <;> omega

/-- C5: size invariant. In every state reachable from a freshly constructed
cache by any sequence of `Get`, `Set` and `Delete` calls, the number of
entries in the index map (`Len`) equals the length of the recency list, both
are at most the capacity - which construction clamps to at least 1 - and
`Len` never exceeds the configured (clamped) capacity. -/
theorem size_invariant (capacity : Int) (persistent : Bool) (logPath : String)
    (ops : List AnyOp) :
    Len (runAll (NewOpenCache capacity persistent logPath) ops) =
      (runAll (NewOpenCache capacity persistent logPath) ops).lruDeque.length ∧
    ((runAll (NewOpenCache capacity persistent logPath) ops).lruDeque.length : Int) ≤
      (runAll (NewOpenCache capacity persistent logPath) ops).capacity ∧
    1 ≤ (runAll (NewOpenCache capacity persistent logPath) ops).capacity ∧
    (Len (runAll (NewOpenCache capacity persistent logPath) ops) : Int) ≤
      (NewOpenCache capacity persistent logPath).capacity := by
  obtain ⟨⟨hperm, hnd, hlen, hcap⟩, hceq⟩ :=
    Inv_runAll ops (NewOpenCache capacity persistent logPath)
      (Inv_NewOpenCache capacity persistent logPath)
  have hLen : Len (runAll (NewOpenCache capacity persistent logPath) ops) =
      (runAll (NewOpenCache capacity persistent logPath) ops).lruDeque.length := by
    unfold Len
    rw [hperm.length_eq, List.length_map]
  refine ⟨hLen, hlen, hcap, ?_⟩
  rw [hLen, ← hceq]
  exact hlen

/- The LRU eviction law (C4): machinery for running a batch of inserts on a
fresh cache. -/

/-- Arguments of one `Set` call in a history of inserts. -/
structure SetArg where
  key : GoValue
  value : GoValue
  ttl : Option Int
  now : Int
  deriving DecidableEq

def SetArg.toOp (a : SetArg) : AnyOp := .setA a.key a.value a.ttl a.now true

/-- Entry created by a fresh insert of `a`. -/
def SetArg.entry (a : SetArg) : GoEntry :=
  ⟨a.key, a.value, a.ttl.map (fun d => a.now + d)⟩

theorem setCore_insert_nofull (kv : OpenCache) (k v : GoValue) (ttl : Option Int)
    (now : Int) (hc : ¬ kv.cache.contains k = true)
    (hnofull : ¬ (kv.lruDeque.length : Int) ≥ kv.capacity) :
    setCore kv k v ttl now =
      { kv with cache := k :: kv.cache,
                lruDeque := ⟨k, v, ttl.map (fun d => now + d)⟩ :: kv.lruDeque } := by
  unfold setCore
  rw [if_neg hc]
  dsimp only
  rw [if_neg hnofull]

theorem setCore_insert_evict (kv : OpenCache) (k v : GoValue) (ttl : Option Int)
    (now : Int) (hc : ¬ kv.cache.contains k = true)
    (hfull : (kv.lruDeque.length : Int) ≥ kv.capacity)
    (back : GoEntry) (hback : kv.lruDeque.getLast? = some back) :
    setCore kv k v ttl now =
      { kv with cache := k :: kv.cache.erase back.key,
                lruDeque := ⟨k, v, ttl.map (fun d => now + d)⟩ :: kv.lruDeque.dropLast } := by
  unfold setCore
  rw [if_neg hc]
  dsimp only
  rw [if_pos hfull, hback]

theorem runAll_append_single (S : OpenCache) (l : List AnyOp) (x : AnyOp) :
    runAll S (l ++ [x]) = applyOp (runAll S l) x := by
  unfold runAll
  rw [List.foldl_append]
  rfl

/-- Running a batch of fresh-key inserts that fits in the remaining capacity
of a synchronized non-persistent cache conses each key and entry at the
front, in order. -/
theorem runSets_fresh (args : List SetArg) :
    ∀ S : OpenCache, S.persistent = false →
      S.cache = S.lruDeque.map (fun e => e.key) →
      ((S.lruDeque.length + args.length : Nat) : Int) ≤ S.capacity →
      (∀ a ∈ args, ValidateKey a.key = none) →
      (∀ a ∈ args, a.key ∉ S.cache) →
      (args.map (fun a => a.key)).Nodup →
      runAll S (args.map SetArg.toOp) =
        { S with cache := (args.map (fun a => a.key)).reverse ++ S.cache,
                 lruDeque := (args.map SetArg.entry).reverse ++ S.lruDeque } := by
  induction args with
  | nil =>
    intro S _ _ _ _ _ _
    show S = _
    simp
  | cons a rest ih =>
    intro S hp hsync hlen hval hfresh hnd
    have hvk : ValidateKey a.key = none := hval a (by simp)
    have hfa : a.key ∉ S.cache := hfresh a (by simp)
    have hcontains : ¬ S.cache.contains a.key = true :=
      fun hcon => hfa (List.elem_iff.mp hcon)
    have hnofull : ¬ ((S.lruDeque.length : Int) ≥ S.capacity) := by
      have hl := hlen
      simp only [List.length_cons] at hl
      push_cast at hl
      omega
    have hS : Set S a.key a.value a.ttl a.now true =
        .ok (true, setCore S a.key a.value a.ttl a.now, []) :=
      Set_not_persistent S hp _ _ _ _ _ hvk
    have hstep : setCore S a.key a.value a.ttl a.now =
        { S with cache := a.key :: S.cache,
                 lruDeque := SetArg.entry a :: S.lruDeque } :=
      setCore_insert_nofull S a.key a.value a.ttl a.now hcontains hnofull
    have happly : applyOp S (SetArg.toOp a) =
        { S with cache := a.key :: S.cache,
                 lruDeque := SetArg.entry a :: S.lruDeque } := by
      simp only [SetArg.toOp, applyOp, hS]
      exact hstep
    have hrun : runAll S ((a :: rest).map SetArg.toOp) =
        runAll (applyOp S (SetArg.toOp a)) (rest.map SetArg.toOp) := rfl
    have hsync' : (a.key :: S.cache) =
        (SetArg.entry a :: S.lruDeque).map (fun e => e.key) := by
      simp only [List.map_cons]
      rw [← hsync]
      rfl
    have hlen' : (((SetArg.entry a :: S.lruDeque).length + rest.length : Nat) : Int) ≤
        S.capacity := by
      simp only [List.length_cons] at hlen ⊢
      push_cast at hlen ⊢
      omega
    have hval' : ∀ a' ∈ rest, ValidateKey a'.key = none :=
      fun a' ha' => hval a' (by simp [ha'])
    have hfresh' : ∀ a' ∈ rest, a'.key ∉ a.key :: S.cache := by
      intro a' ha'
      intro hmem
      rcases List.mem_cons.mp hmem with heq | hmem'
      · have : a.key ∈ rest.map (fun a => a.key) :=
          heq ▸ List.mem_map_of_mem _ ha'
        exact (List.nodup_cons.mp hnd).1 this
      · exact hfresh a' (by simp [ha']) hmem'
    have hnd' : (rest.map (fun a => a.key)).Nodup := (List.nodup_cons.mp hnd).2
    rw [hrun, happly,
      ih { S with cache := a.key :: S.cache, lruDeque := SetArg.entry a :: S.lruDeque }
        hp hsync' hlen' hval' hfresh' hnd']
    simp [List.append_assoc]

/-- C4: LRU eviction law. For every capacity `C >= 1` and every batch of
`C + 1` `Set` calls on pairwise-distinct valid keys applied to a fresh
non-persistent cache with no intervening `Get` calls, after the last `Set`
the first-inserted key is absent from the index map and every other key is
present: the eviction removed exactly the back-of-list (least recently used)
node, irrespective of any entry's TTL. -/
theorem lru_eviction_law (C : Int) (hC : 1 ≤ C) (a₀ : SetArg) (rest : List SetArg)
    (hlen : (((a₀ :: rest).length : Nat) : Int) = C + 1)
    (hnd : ((a₀ :: rest).map (fun a => a.key)).Nodup)
    (hval : ∀ a ∈ a₀ :: rest, ValidateKey a.key = none) :
    (runAll (NewOpenCache C false "") ((a₀ :: rest).map SetArg.toOp)).cache.contains
        a₀.key = false ∧
    ∀ a ∈ rest,
      (runAll (NewOpenCache C false "") ((a₀ :: rest).map SetArg.toOp)).cache.contains
        a.key = true := by
  rcases List.eq_nil_or_concat rest with hnil | ⟨mid, aL, rfl⟩
  · subst hnil
    simp only [List.length_cons, List.length_nil] at hlen
    push_cast at hlen
    omega
  · simp only [List.concat_eq_append] at hlen hnd hval ⊢
    have hsplit : a₀ :: (mid ++ [aL]) = (a₀ :: mid) ++ [aL] := rfl
    have hmeminit : ∀ a ∈ a₀ :: mid, a ∈ a₀ :: (mid ++ [aL]) := by
      intro a ha
      rcases List.mem_cons.mp ha with h | h
      · exact h ▸ List.mem_cons_self _ _
      · exact List.mem_cons_of_mem _ (List.mem_append_left _ h)
    have haLmem : aL ∈ a₀ :: (mid ++ [aL]) :=
      List.mem_cons_of_mem _ (List.mem_append_right _ (by simp))
    have hcap : (NewOpenCache C false "").capacity = C := by
      show (if C < 1 then 1 else C) = C
      rw [if_neg (by omega)]
    have hmidlen : (((a₀ :: mid).length : Nat) : Int) = C := by
      simp only [List.length_cons, List.length_append, List.length_nil] at hlen ⊢
      push_cast at hlen ⊢
      omega
    have hndinit : ((a₀ :: mid).map (fun a => a.key)).Nodup := by
      have hsub : ((a₀ :: mid).map (fun a => a.key)).Sublist
          (((a₀ :: mid) ++ [aL]).map (fun a => a.key)) := by
        rw [List.map_append]
        exact List.sublist_append_left _ _
      exact List.Sublist.nodup hsub (by rw [← hsplit]; exact hnd)
    have hmid : runAll (NewOpenCache C false "") ((a₀ :: mid).map SetArg.toOp) =
        { NewOpenCache C false "" with
          cache := ((a₀ :: mid).map (fun a => a.key)).reverse,
          lruDeque := ((a₀ :: mid).map SetArg.entry).reverse } := by
      have := runSets_fresh (a₀ :: mid) (NewOpenCache C false "") rfl rfl
        (by
          show ((((0:Nat) + (a₀ :: mid).length : Nat)) : Int) ≤ (NewOpenCache C false "").capacity
          rw [hcap]
          push_cast
          omega)
        (fun a ha => hval a (hmeminit a ha))
        (fun a _ h => by simp [NewOpenCache] at h)
        hndinit
      rw [this]
      simp [NewOpenCache]
    have hndfull : (a₀.key :: (mid.map (fun a => a.key) ++ [aL.key])).Nodup := by
      have h0 := hnd
      simpa [List.map_append] using h0
    obtain ⟨ha₀notmem, hndtail⟩ := List.nodup_cons.mp hndfull
    have ha₀mid : a₀.key ∉ mid.map (fun a => a.key) :=
      fun hm => ha₀notmem (List.mem_append_left _ hm)
    have haLinit : aL.key ∉ (a₀ :: mid).map (fun a => a.key) := by
      intro hm
      rcases List.mem_cons.mp hm with heq | hmem
    -- aL.key = a₀.key or aL.key among the middle keys: both break Nodup
      · exact ha₀notmem (List.mem_append_right _ (by simp [heq.symm]))
      · exact (List.nodup_append.mp hndtail).2.2 hmem (by simp)
    have hcontainsL : ¬ (runAll (NewOpenCache C false "")
        ((a₀ :: mid).map SetArg.toOp)).cache.contains aL.key = true := by
      rw [hmid]
      intro hcon
      exact haLinit (List.mem_reverse.mp (List.elem_iff.mp hcon))
    have hfullS : (((runAll (NewOpenCache C false "")
        ((a₀ :: mid).map SetArg.toOp)).lruDeque.length : Nat) : Int) ≥
        (runAll (NewOpenCache C false "") ((a₀ :: mid).map SetArg.toOp)).capacity := by
      rw [hmid]
      show ((((a₀ :: mid).map SetArg.entry).reverse.length : Nat) : Int) ≥
        (NewOpenCache C false "").capacity
      rw [List.length_reverse, List.length_map, hcap]
      push_cast at hmidlen ⊢
      omega
    have hbackS : (runAll (NewOpenCache C false "")
        ((a₀ :: mid).map SetArg.toOp)).lruDeque.getLast? = some (SetArg.entry a₀) := by
      rw [hmid]
      show ((a₀ :: mid).map SetArg.entry).reverse.getLast? = some (SetArg.entry a₀)
      rw [List.getLast?_reverse]
      rfl
    have hvL : ValidateKey aL.key = none := hval aL haLmem
    have hpL : (runAll (NewOpenCache C false "")
        ((a₀ :: mid).map SetArg.toOp)).persistent = false := by
      rw [hmid]
      rfl
    have hSL : Set (runAll (NewOpenCache C false "") ((a₀ :: mid).map SetArg.toOp))
        aL.key aL.value aL.ttl aL.now true =
        .ok (true, setCore (runAll (NewOpenCache C false "") ((a₀ :: mid).map SetArg.toOp))
              aL.key aL.value aL.ttl aL.now, []) :=
      Set_not_persistent _ hpL _ _ _ _ _ hvL
    have hscL := setCore_insert_evict
      (runAll (NewOpenCache C false "") ((a₀ :: mid).map SetArg.toOp))
      aL.key aL.value aL.ttl aL.now hcontainsL hfullS (SetArg.entry a₀) hbackS
    have hcacheL : (setCore (runAll (NewOpenCache C false "") ((a₀ :: mid).map SetArg.toOp))
        aL.key aL.value aL.ttl aL.now).cache =
        aL.key :: (mid.map (fun a => a.key)).reverse := by
      rw [hscL]
      show aL.key :: (runAll (NewOpenCache C false "")
          ((a₀ :: mid).map SetArg.toOp)).cache.erase (SetArg.entry a₀).key = _
      rw [hmid]
      show aL.key :: ((a₀ :: mid).map (fun a => a.key)).reverse.erase a₀.key = _
      rw [show ((a₀ :: mid).map (fun a => a.key)).reverse =
            (mid.map (fun a => a.key)).reverse ++ [a₀.key] by
          simp [List.reverse_cons]]
      rw [List.erase_append_right _ (by
          intro hm
          exact ha₀mid (List.mem_reverse.mp hm))]
      simp
    have hfin : runAll (NewOpenCache C false "") ((a₀ :: (mid ++ [aL])).map SetArg.toOp) =
        setCore (runAll (NewOpenCache C false "") ((a₀ :: mid).map SetArg.toOp))
          aL.key aL.value aL.ttl aL.now := by
      have h1 : (a₀ :: (mid ++ [aL])).map SetArg.toOp =
          (a₀ :: mid).map SetArg.toOp ++ [SetArg.toOp aL] := by
        simp
      rw [h1, runAll_append_single]
      simp only [SetArg.toOp, applyOp, hSL]
    constructor
    · rw [hfin, hcacheL]
      refine Bool.eq_false_iff.mpr ?_
      intro hcon
      rcases List.mem_cons.mp (List.elem_iff.mp hcon) with heq | hmem
      · exact ha₀notmem (List.mem_append_right _ (by simp [heq]))
      · exact ha₀mid (List.mem_reverse.mp hmem)
    · intro a ha
      rw [hfin, hcacheL]
      refine List.elem_iff.mpr ?_
      rcases List.mem_append.mp ha with hmidmem | hlast
      · exact List.mem_cons_of_mem _
          (List.mem_reverse.mpr (List.mem_map_of_mem _ hmidmem))
      · have : a = aL := by simpa using hlast
        subst this
        exact List.mem_cons_self _ _

theorem lru_eviction_law_witness :
    (runAll (NewOpenCache 1 false "")
        (([⟨GoValue.strV "a", GoValue.intV 1, none, 0⟩,
           ⟨GoValue.strV "b", GoValue.intV 2, none, 1⟩] : List SetArg).map
          SetArg.toOp)).cache.contains
      (⟨GoValue.strV "a", GoValue.intV 1, none, 0⟩ : SetArg).key = false ∧
    ∀ a ∈ ([⟨GoValue.strV "b", GoValue.intV 2, none, 1⟩] : List SetArg),
      (runAll (NewOpenCache 1 false "")
          (([⟨GoValue.strV "a", GoValue.intV 1, none, 0⟩,
             ⟨GoValue.strV "b", GoValue.intV 2, none, 1⟩] : List SetArg).map
            SetArg.toOp)).cache.contains a.key = true :=
  lru_eviction_law 1 (by decide) ⟨GoValue.strV "a", GoValue.intV 1, none, 0⟩
    [⟨GoValue.strV "b", GoValue.intV 2, none, 1⟩]
    (by decide) (by decide) (by decide)

/- Bridge lemmas between entry lists and their key-value projections, used
for the replay simulation (C1). -/

theorem map_projE_keys (l : List GoEntry) :
    (l.map projE).map Prod.fst = l.map (fun e => e.key) := by
  rw [List.map_map]
  rfl

theorem map_valF_keys (f : GoValue → GoValue) (l : List (GoValue × GoValue)) :
    (mapVal f l).map Prod.fst = l.map Prod.fst := by
  unfold mapVal
  rw [List.map_map]
  rfl

theorem find?_projE (l : List GoEntry) (k : GoValue) :
    (l.map projE).find? (fun p => p.1 == k) =
      (l.find? (fun e => e.key == k)).map projE := by
  rw [List.find?_map]
  rfl

theorem eraseP_projE (l : List GoEntry) (k : GoValue) :
    (l.map projE).eraseP (fun p => p.1 == k) =
      (l.eraseP (fun e => e.key == k)).map projE := by
  rw [List.eraseP_map]
  rfl

theorem find?_valF (f : GoValue → GoValue) (l : List (GoValue × GoValue)) (k : GoValue) :
    (mapVal f l).find? (fun p => p.1 == k) =
      (l.find? (fun p => p.1 == k)).map (valF f) := by
  unfold mapVal
  rw [List.find?_map]
  rfl

theorem eraseP_valF (f : GoValue → GoValue) (l : List (GoValue × GoValue)) (k : GoValue) :
    (mapVal f l).eraseP (fun p => p.1 == k) =
      mapVal f (l.eraseP (fun p => p.1 == k)) := by
  unfold mapVal
  rw [List.eraseP_map]
  rfl

theorem map_projE_upd (l : List GoEntry) (k w : GoValue) (ex : Option Int) :
    (l.map (fun e =>
        if e.key == k then { e with value := w, expiresAt := ex } else e)).map projE =
      (l.map projE).map (fun p => if p.1 == k then (p.1, w) else p) := by
  rw [List.map_map, List.map_map]
  apply List.map_congr_left
  intro e _
  by_cases h : e.key == k <;> simp [projE, Function.comp, h]

theorem mapVal_upd (f : GoValue → GoValue) (l : List (GoValue × GoValue))
    (k w : GoValue) :
    mapVal f (l.map (fun p => if p.1 == k then (p.1, w) else p)) =
      (mapVal f l).map (fun p => if p.1 == k then (p.1, f w) else p) := by
  unfold mapVal
  rw [List.map_map, List.map_map]
  apply List.map_congr_left
  intro p _
  by_cases h : p.1 == k <;> simp [valF, Function.comp, h]

theorem map_projE_moveToFront (l : List GoEntry) (k : GoValue) :
    (moveToFront k l).map projE =
      match (l.map projE).find? (fun p => p.1 == k) with
      | some p => p :: (l.map projE).eraseP (fun p => p.1 == k)
      | none => l.map projE := by
  cases h : l.find? (fun e => e.key == k) with
  | none =>
    unfold moveToFront
    rw [h, find?_projE, h]
    rfl
  | some e =>
    unfold moveToFront
    rw [h, find?_projE, h]
    show projE e :: (l.eraseP (fun e => e.key == k)).map projE = _
    rw [eraseP_projE]
    rfl

theorem dropLast_projE (l : List GoEntry) :
    l.dropLast.map projE = (l.map projE).dropLast :=
  List.map_dropLast _ _

theorem dropLast_valF (f : GoValue → GoValue) (l : List (GoValue × GoValue)) :
    mapVal f l.dropLast = (mapVal f l).dropLast := by
  unfold mapVal
  exact List.map_dropLast _ _

theorem Rel_keys (f : GoValue → GoValue) (A B : OpenCache) (h : Rel f A B) :
    B.lruDeque.map (fun e => e.key) = A.lruDeque.map (fun e => e.key) := by
  have h2 := congrArg (List.map Prod.fst) h.2.1
  rw [show (kvProj B).map Prod.fst = B.lruDeque.map (fun e => e.key) from
      map_projE_keys _] at h2
  rw [map_valF_keys] at h2
  rw [show (kvProj A).map Prod.fst = A.lruDeque.map (fun e => e.key) from
      map_projE_keys _] at h2
  exact h2

theorem Rel_length (f : GoValue → GoValue) (A B : OpenCache) (h : Rel f A B) :
    B.lruDeque.length = A.lruDeque.length := by
  have := congrArg List.length (Rel_keys f A B h)
  simpa using this

/-- One `Set` keeps the replay simulation: writing `v` to the original and
`f v` to the replay preserves `Rel f`, whatever the two TTLs and times are -
the in-memory `Set` transition never reads values or expiries except to
overwrite them. -/
theorem setCore_rel (f : GoValue → GoValue) (A B : OpenCache) (h : Rel f A B)
    (k v : GoValue) (ta tb : Option Int) (na nb : Int) :
    Rel f (setCore A k v ta na) (setCore B k (f v) tb nb) := by
  obtain ⟨hcache, hkv, hcap⟩ := h
  have hlen : B.lruDeque.length = A.lruDeque.length :=
    Rel_length f A B ⟨hcache, hkv, hcap⟩
  by_cases hc : A.cache.contains k = true
  · have hcB : B.cache.contains k = true := by rw [hcache]; exact hc
    unfold setCore
    rw [if_pos hc, if_pos hcB]
    refine ⟨hcache, ?_, hcap⟩
    show (moveToFront k (B.lruDeque.map (fun e =>
        if e.key == k then { e with value := f v, expiresAt := tb.map (fun d => nb + d) }
        else e))).map projE =
      mapVal f ((moveToFront k (A.lruDeque.map (fun e =>
        if e.key == k then { e with value := v, expiresAt := ta.map (fun d => na + d) }
        else e))).map projE)
    rw [map_projE_moveToFront, map_projE_moveToFront, map_projE_upd, map_projE_upd]
    rw [show (B.lruDeque.map projE) = mapVal f (A.lruDeque.map projE) from hkv]
    rw [← mapVal_upd, find?_valF]
    cases hf : ((A.lruDeque.map projE).map
        (fun p => if p.1 == k then (p.1, v) else p)).find? (fun p => p.1 == k) with
    | none => rfl
    | some p =>
      show valF f p :: (mapVal f ((A.lruDeque.map projE).map
          (fun p => if p.1 == k then (p.1, v) else p))).eraseP (fun p => p.1 == k) = _
      rw [eraseP_valF]
      rfl
  · have hcB : ¬ B.cache.contains k = true := by rw [hcache]; exact hc
    unfold setCore
    rw [if_neg hc, if_neg hcB]
    dsimp only
    by_cases hfull : (A.lruDeque.length : Int) ≥ A.capacity
    · have hfullB : (B.lruDeque.length : Int) ≥ B.capacity := by
        rw [hlen, hcap]; exact hfull
      rw [if_pos hfull, if_pos hfullB]
      cases hgA : A.lruDeque.getLast? with
      | none =>
        have hAnil : A.lruDeque = [] := List.getLast?_eq_none_iff.mp hgA
        have hBnil : B.lruDeque = [] := List.length_eq_zero.mp (by rw [hlen, hAnil]; rfl)
        rw [show B.lruDeque.getLast? = none from by rw [hBnil]; rfl]
        refine ⟨?_, ?_, hcap⟩
        · show k :: B.cache = k :: A.cache
          rw [hcache]
        · show ((⟨k, f v, tb.map (fun d => nb + d)⟩ : GoEntry) :: B.lruDeque).map projE =
            mapVal f (((⟨k, v, ta.map (fun d => na + d)⟩ : GoEntry) :: A.lruDeque).map projE)
          simp only [List.map_cons]
          rw [show (B.lruDeque.map projE) = mapVal f (A.lruDeque.map projE) from hkv]
          rfl
      | some backA =>
        have hgB : ∃ backB, B.lruDeque.getLast? = some backB ∧
            projE backB = valF f (projE backA) := by
          have h1 : (B.lruDeque.map projE).getLast? =
              (mapVal f (A.lruDeque.map projE)).getLast? := by
            rw [show (B.lruDeque.map projE) = mapVal f (A.lruDeque.map projE) from hkv]
          rw [List.getLast?_map] at h1
          rw [show mapVal f (A.lruDeque.map projE) =
              (A.lruDeque.map projE).map (valF f) from rfl] at h1
          rw [List.getLast?_map, List.getLast?_map, hgA] at h1
          cases hgb : B.lruDeque.getLast? with
          | none => rw [hgb] at h1; exact absurd h1 (by simp)
          | some backB =>
            rw [hgb] at h1
            exact ⟨backB, rfl, by simpa using h1⟩
        obtain ⟨backB, hgB, hpb⟩ := hgB
        rw [hgB]
        have hkeyb : backB.key = backA.key := congrArg Prod.fst hpb
        refine ⟨?_, ?_, hcap⟩
        · show k :: B.cache.erase backB.key = k :: A.cache.erase backA.key
          rw [hcache, hkeyb]
        · show ((⟨k, f v, tb.map (fun d => nb + d)⟩ : GoEntry) ::
              B.lruDeque.dropLast).map projE =
            mapVal f (((⟨k, v, ta.map (fun d => na + d)⟩ : GoEntry) ::
              A.lruDeque.dropLast).map projE)
          simp only [List.map_cons]
          rw [dropLast_projE, dropLast_projE]
          rw [show (B.lruDeque.map projE) = mapVal f (A.lruDeque.map projE) from hkv]
          rw [← dropLast_valF]
          rfl
    · have hfullB : ¬ (B.lruDeque.length : Int) ≥ B.capacity := by
        rw [hlen, hcap]; exact hfull
      rw [if_neg hfull, if_neg hfullB]
      refine ⟨?_, ?_, hcap⟩
      · show k :: B.cache = k :: A.cache
        rw [hcache]
      · show ((⟨k, f v, tb.map (fun d => nb + d)⟩ : GoEntry) :: B.lruDeque).map projE =
          mapVal f (((⟨k, v, ta.map (fun d => na + d)⟩ : GoEntry) :: A.lruDeque).map projE)
        simp only [List.map_cons]
        rw [show (B.lruDeque.map projE) = mapVal f (A.lruDeque.map projE) from hkv]
        rfl

/-- One `Delete` keeps the replay simulation. -/
theorem delCore_rel (f : GoValue → GoValue) (A B : OpenCache) (h : Rel f A B)
    (k : GoValue) : Rel f (delCore A k) (delCore B k) := by
  obtain ⟨hcache, hkv, hcap⟩ := h
  refine ⟨?_, ?_, hcap⟩
  · show B.cache.erase k = A.cache.erase k
    rw [hcache]
  · show (B.lruDeque.eraseP (fun e => e.key == k)).map projE =
      mapVal f ((A.lruDeque.eraseP (fun e => e.key == k)).map projE)
    rw [← eraseP_projE, ← eraseP_projE]
    rw [show (B.lruDeque.map projE) = mapVal f (A.lruDeque.map projE) from hkv]
    rw [eraseP_valF]

/-- On a persistent cache, `Delete` of a present string key removes the
entry and appends the serialized record. -/
theorem Delete_persistent_string (kv : OpenCache) (h : kv.persistent = true)
    (s : String) (io : Bool) (hc : kv.cache.contains (.strV s) = true) :
    Delete kv (.strV s) io =
      .ok (true, (AppendToLog (delCore kv (.strV s)) ⟨"DELETE", s, .nilV, 0⟩ io).1,
           (AppendToLog (delCore kv (.strV s)) ⟨"DELETE", s, .nilV, 0⟩ io).2.toList) := by
  unfold Delete
  simp [ValidateKey, List.elem_iff.mp hc, delCore_persistent, h, makeLogEntry]

/-- The log append touches only the log path: it preserves the simulation
relation on the original side. -/
theorem Rel_AppendToLog (f : GoValue → GoValue) (S B : OpenCache) (e : LogEntry)
    (io : Bool) (h : Rel f S B) : Rel f (AppendToLog S e io).1 B := by
  obtain ⟨h1, h2, h3⟩ := h
  refine ⟨?_, ?_, ?_⟩
  · rw [AppendToLog_cache]; exact h1
  · show kvProj B = mapVal f (kvProj (AppendToLog S e io).1)
    unfold kvProj
    rw [AppendToLog_lruDeque]
    exact h2
  · rw [AppendToLog_capacity]; exact h3

theorem AppendToLog_toList_true (kv : OpenCache) (e : LogEntry) :
    (AppendToLog kv e true).2.toList = [e] := rfl

/-- Replaying one decoded `SET` record applies `Set` with the JSON-decoded
value and the reconstructed TTL. -/
theorem replay_one_set (B : OpenCache) (hB : B.persistent = false) (r : LogEntry)
    (hop : r.op = "SET") (ts : List Int) :
    replayLines B [some (parseRecord r)] ts =
      .ok (setCore B (.strV r.key) (jsonRoundTrip r.value)
        (if r.ttlms > 0 then some (wrap64 (r.ttlms * 1000000)) else none) (ts.headD 0), []) := by
  have hS := Set_not_persistent B hB (.strV r.key) (jsonRoundTrip r.value)
    (if r.ttlms > 0 then some (wrap64 (r.ttlms * 1000000)) else none) (ts.headD 0) true rfl
  have hst : replayStep B (some (parseRecord r)) (ts.headD 0) =
      .ok (setCore B (.strV r.key) (jsonRoundTrip r.value)
        (if r.ttlms > 0 then some (wrap64 (r.ttlms * 1000000)) else none) (ts.headD 0), []) := by
    show replayStep B (some ⟨r.op, r.key, jsonRoundTrip r.value, r.ttlms⟩) _ = _
    simp only [List.headD_eq_head?_getD] at hS
    simp [replayStep, hop, hS]
  simp only [replayLines]
  rw [hst]
  rfl

/-- Replaying one decoded `DELETE` record applies `Delete`. -/
theorem replay_one_delete (B : OpenCache) (hB : B.persistent = false) (r : LogEntry)
    (hop : r.op = "DELETE") (ts : List Int) :
    replayLines B [some (parseRecord r)] ts =
      .ok (if B.cache.contains (.strV r.key) = true
           then delCore B (.strV r.key) else B, []) := by
  have hD := Delete_not_persistent B hB (.strV r.key) true rfl
  have hst : replayStep B (some (parseRecord r)) (ts.headD 0) =
      .ok (if B.cache.contains (.strV r.key) = true
           then delCore B (.strV r.key) else B, []) := by
    show replayStep B (some ⟨r.op, r.key, jsonRoundTrip r.value, r.ttlms⟩) _ = _
    have hns : r.op ≠ "SET" := by rw [hop]; decide
    simp [replayStep, hop, hns, hD]
  simp only [replayLines]
  rw [hst]
  rfl

/-- One original mutating call and the replay of the records it wrote
preserve the simulation relation. -/
theorem stepOp_sim (op : CacheOp) (hk : op.keyIsString = true)
    (A B : OpenCache) (hRel : Rel jsonRoundTrip A B)
    (hA : A.persistent = true) (hB : B.persistent = false)
    (b : Bool) (A₁ : OpenCache) (recs : List LogEntry)
    (hstep : stepOp A op = .ok (b, A₁, recs)) (ts : List Int) :
    ∃ B₁, replayLines B (recs.map (fun e => some (parseRecord e))) ts = .ok (B₁, []) ∧
      Rel jsonRoundTrip A₁ B₁ ∧ A₁.persistent = true ∧ B₁.persistent = false := by
  cases op with
  | setOp k v ttl now =>
    cases k with
    | nilV => simp [CacheOp.keyIsString] at hk
    | boolV x => simp [CacheOp.keyIsString] at hk
    | intV x => simp [CacheOp.keyIsString] at hk
    | floatV x => simp [CacheOp.keyIsString] at hk
    | sliceV x => simp [CacheOp.keyIsString] at hk
    | jsonArrV x => simp [CacheOp.keyIsString] at hk
    | strV s =>
      rw [show stepOp A (.setOp (.strV s) v ttl now) = Set A (.strV s) v ttl now true
            from rfl,
          Set_persistent_string A hA s v ttl now true] at hstep
      simp only [Except.ok.injEq, Prod.mk.injEq] at hstep
      obtain ⟨-, hA₁, hrecs⟩ := hstep
      subst hA₁
      subst hrecs
      rw [AppendToLog_toList_true, List.map_cons, List.map_nil]
      refine ⟨_, replay_one_set B hB _ rfl ts, ?_, ?_, ?_⟩
      · exact Rel_AppendToLog _ _ _ _ _
          (setCore_rel jsonRoundTrip A B hRel (.strV s) v ttl _ now _)
      · rw [AppendToLog_persistent, setCore_persistent]
        exact hA
      · rw [setCore_persistent]
        exact hB
  | delOp k =>
    cases k with
    | nilV => simp [CacheOp.keyIsString] at hk
    | boolV x => simp [CacheOp.keyIsString] at hk
    | intV x => simp [CacheOp.keyIsString] at hk
    | floatV x => simp [CacheOp.keyIsString] at hk
    | sliceV x => simp [CacheOp.keyIsString] at hk
    | jsonArrV x => simp [CacheOp.keyIsString] at hk
    | strV s =>
      by_cases hc : A.cache.contains (.strV s) = true
      · rw [show stepOp A (.delOp (.strV s)) = Delete A (.strV s) true from rfl,
          Delete_persistent_string A hA s true hc] at hstep
        simp only [Except.ok.injEq, Prod.mk.injEq] at hstep
        obtain ⟨-, hA₁, hrecs⟩ := hstep
        subst hA₁
        subst hrecs
        rw [AppendToLog_toList_true, List.map_cons, List.map_nil]
        have hcB : B.cache.contains (.strV s) = true := by
          rw [hRel.1]
          exact hc
        have hrep := replay_one_delete B hB ⟨"DELETE", s, .nilV, 0⟩ rfl ts
        rw [show (if B.cache.contains (.strV (⟨"DELETE", s, GoValue.nilV, 0⟩ :
              LogEntry).key) = true
            then delCore B (.strV (⟨"DELETE", s, GoValue.nilV, 0⟩ : LogEntry).key)
            else B) = delCore B (.strV s) from by rw [if_pos hcB]] at hrep
        refine ⟨delCore B (.strV s), hrep, ?_, ?_, ?_⟩
        · exact Rel_AppendToLog _ _ _ _ _
            (delCore_rel jsonRoundTrip A B hRel (.strV s))
        · rw [AppendToLog_persistent, delCore_persistent]
          exact hA
        · rw [delCore_persistent]
          exact hB
      · have hdel : Delete A (.strV s) true = .ok (false, A, []) := by
          have hcm : GoValue.strV s ∉ A.cache := fun hm => hc (List.elem_iff.mpr hm)
          unfold Delete
          simp [ValidateKey, hcm]
        rw [show stepOp A (.delOp (.strV s)) = Delete A (.strV s) true from rfl,
          hdel] at hstep
        simp only [Except.ok.injEq, Prod.mk.injEq] at hstep
        obtain ⟨-, hA₁, hrecs⟩ := hstep
        subst hA₁
        subst hrecs
        exact ⟨B, rfl, hRel, hA, hB⟩

/-- The replay loop splits over list concatenation, the per-line times being
consumed in order. -/
theorem replayLines_append (l₂ : List (Option LogEntry)) (l₁ : List (Option LogEntry)) :
    ∀ (kv : OpenCache) (ts : List Int),
      replayLines kv (l₁ ++ l₂) ts =
        match replayLines kv l₁ (ts.take l₁.length) with
        | .error m => .error m
        | .ok (kv₁, r₁) =>
          match replayLines kv₁ l₂ (ts.drop l₁.length) with
          | .error m => .error m
          | .ok (kv₂, r₂) => .ok (kv₂, r₁ ++ r₂) := by
  induction l₁ with
  | nil =>
    intro kv ts
    simp only [List.nil_append, List.length_nil, List.take_zero, List.drop_zero]
    show replayLines kv l₂ ts =
      match replayLines kv l₂ ts with
      | .error m => .error m
      | .ok (kv₂, r₂) => .ok (kv₂, [] ++ r₂)
    cases h : replayLines kv l₂ ts with
    | error m => rfl
    | ok p =>
      obtain ⟨kv₂, r₂⟩ := p
      simp
  | cons x t ihl =>
    intro kv ts
    have hheadD : (ts.take (t.length + 1)).headD 0 = ts.headD 0 := by
      cases ts <;> simp
    have htail : (ts.take (t.length + 1)).tail = ts.tail.take t.length := by
      cases ts <;> simp
    have hdrop : ts.drop (t.length + 1) = ts.tail.drop t.length := by
      cases ts <;> simp
    simp only [List.cons_append, replayLines, List.length_cons, hheadD, htail, hdrop]
    cases hs : replayStep kv x (ts.headD 0) with
    | error m => rfl
    | ok p =>
      obtain ⟨kv₁, r₁⟩ := p
      dsimp only
      rw [show List.append t l₂ = t ++ l₂ from rfl, ihl kv₁ ts.tail]
      cases h1 : replayLines kv₁ t (ts.tail.take t.length) with
      | error m => rfl
      | ok q =>
        obtain ⟨kv₂, r₂⟩ := q
        dsimp only
        cases h2 : replayLines kv₂ l₂ (ts.tail.drop t.length) with
        | error m => rfl
        | ok w =>
          obtain ⟨kv₃, r₃⟩ := w
          simp [List.append_assoc]

/-- Simulation of a whole history: the replay of everything a run of
mutating calls wrote to the log reconstructs the run's final state up to the
JSON round trip of the values, whatever times the replay happens at. -/
theorem runOps_replay (ops : List CacheOp) :
    ∀ (A B A' : OpenCache) (log : List LogEntry) (times : List Int),
      (∀ op ∈ ops, op.keyIsString = true) →
      Rel jsonRoundTrip A B → A.persistent = true → B.persistent = false →
      runOps A ops = .ok (A', log) →
      ∃ B', replayLines B (log.map (fun e => some (parseRecord e))) times =
          .ok (B', []) ∧
        Rel jsonRoundTrip A' B' ∧ B'.persistent = false := by
  induction ops with
  | nil =>
    intro A B A' log times _ hRel hA hB hrun
    have h1 : A' = A ∧ log = [] := by
      have : (Except.ok (A, []) : Except String (OpenCache × List LogEntry)) =
          .ok (A', log) := hrun
      simp only [Except.ok.injEq, Prod.mk.injEq] at this
      exact ⟨this.1.symm, this.2.symm⟩
    obtain ⟨rfl, rfl⟩ := h1
    exact ⟨B, rfl, hRel, hB⟩
  | cons op rest ih =>
    intro A B A' log times hkeys hRel hA hB hrun
    rw [show runOps A (op :: rest) =
        (match stepOp A op with
         | .error m => .error m
         | .ok (_, kv', recs) =>
           match runOps kv' rest with
           | .error m => .error m
           | .ok (kvf, l) => .ok (kvf, recs ++ l)) from rfl] at hrun
    cases hs : stepOp A op with
    | error m => rw [hs] at hrun; simp at hrun
    | ok p =>
      obtain ⟨b, A₁, recs⟩ := p
      rw [hs] at hrun
      dsimp only at hrun
      cases hr : runOps A₁ rest with
      | error m => rw [hr] at hrun; simp at hrun
      | ok q =>
        obtain ⟨A'', log₂⟩ := q
        rw [hr] at hrun
        simp only [Except.ok.injEq, Prod.mk.injEq] at hrun
        obtain ⟨hA', hlog⟩ := hrun
        subst hA'
        subst hlog
        obtain ⟨B₁, hrep₁, hRel₁, hA₁p, hB₁p⟩ :=
          stepOp_sim op (hkeys op (by simp)) A B hRel hA hB b A₁ recs hs
            (times.take (recs.map (fun e => some (parseRecord e))).length)
        obtain ⟨B', hrep₂, hRel', hB'p⟩ :=
          ih A₁ B₁ A'' log₂ (times.drop (recs.map (fun e => some (parseRecord e))).length)
            (fun o ho => hkeys o (by simp [ho])) hRel₁ hA₁p hB₁p hr
        refine ⟨B', ?_, hRel', hB'p⟩
        rw [List.map_append, replayLines_append, hrep₁]
        dsimp only
        rw [hrep₂]
        rfl

/-- C1 as stated fails on the code: replayed values are not the stored
values. The single successful call `Set("k", 1)` on a fresh persistent cache
of capacity 1 writes the record `SET k 1`; replaying that log file into a
fresh cache of the same capacity reproduces the key set, but the value
stored under `"k"` is the `float64` 1 that `json.Unmarshal` decodes into the
`interface` value - not the original `int` 1, and the two are different
values. -/
theorem replay_round_trip_counterexample :
    runOps (NewOpenCache 1 true "p") [CacheOp.setOp (.strV "k") (.intV 1) none 0] =
      .ok (⟨[.strV "k"], [⟨.strV "k", .intV 1, none⟩], 1, true, "p"⟩,
           [⟨"SET", "k", .intV 1, 0⟩]) ∧
    ReplayLog (NewOpenCache 1 true "q")
        (some ([(⟨"SET", "k", .intV 1, 0⟩ : LogEntry)].map
          (fun e => some (parseRecord e)))) [5] none =
      .ok (⟨[.strV "k"], [⟨.strV "k", .floatV 1, none⟩], 1, true, "q"⟩, [], none) ∧
    (⟨[.strV "k"], [⟨.strV "k", .floatV 1, none⟩], 1, true, "q"⟩ : OpenCache).cache =
      (⟨[.strV "k"], [⟨.strV "k", .intV 1, none⟩], 1, true, "p"⟩ : OpenCache).cache ∧
    (Get ⟨[.strV "k"], [⟨.strV "k", .intV 1, none⟩], 1, true, "p"⟩ (.strV "k") 6).1 =
      (some (.intV 1), true) ∧
    (Get ⟨[.strV "k"], [⟨.strV "k", .floatV 1, none⟩], 1, true, "q"⟩ (.strV "k") 6).1 =
      (some (.floatV 1), true) ∧
    (some (GoValue.floatV 1) : Option GoValue) ≠ some (.intV 1) := by
  refine ⟨?_, ?_, ?_, ?_, ?_, ?_⟩ <;> decide

/-- C1 amended: replay round-trip under matching capacity, up to the JSON
round trip of values. For every history of successful `Set`/`Delete` calls
with string keys on a fresh persistent cache A of capacity C, replaying the
resulting log file into a fresh cache B of the same capacity reproduces A's
final index-map key list exactly, and the recency list agrees key-for-key
and order-for-order with the value under each key equal to the JSON round
trip of A's value (equal to it for strings, booleans and null; `float64` of
the same numeric value for ints). Entry expiries are reconstructed from
replay time and are not part of the statement. -/
theorem replay_round_trip_amended (C : Int) (path₁ path₂ : String) (p₂ : Bool)
    (ops : List CacheOp) (hkeys : ∀ op ∈ ops, op.keyIsString = true)
    (A : OpenCache) (log : List LogEntry)
    (hrun : runOps (NewOpenCache C true path₁) ops = .ok (A, log))
    (times : List Int) :
    ∃ B, ReplayLog (NewOpenCache C p₂ path₂)
        (some (log.map (fun e => some (parseRecord e)))) times none =
          .ok (B, [], none) ∧
      B.cache = A.cache ∧
      kvProj B = mapVal jsonRoundTrip (kvProj A) := by
  have hRel0 : Rel jsonRoundTrip (NewOpenCache C true path₁)
      { NewOpenCache C p₂ path₂ with persistent := false } := ⟨rfl, rfl, rfl⟩
  obtain ⟨B', hrep, hRelF, -⟩ := runOps_replay ops (NewOpenCache C true path₁)
    { NewOpenCache C p₂ path₂ with persistent := false } A log times hkeys hRel0
    rfl rfl hrun
  refine ⟨{ B' with persistent := p₂ }, ?_, ?_, ?_⟩
  · rw [show ReplayLog (NewOpenCache C p₂ path₂)
        (some (log.map (fun e => some (parseRecord e)))) times none =
        (match replayLines { NewOpenCache C p₂ path₂ with persistent := false }
            (log.map (fun e => some (parseRecord e))) times with
         | .error m => .error m
         | .ok (kv2, recs) =>
           .ok ({ kv2 with persistent := (NewOpenCache C p₂ path₂).persistent },
                recs, none)) from rfl]
    rw [hrep]
    rfl
  · exact hRelF.1
  · exact hRelF.2.1

theorem replay_round_trip_amended_witness :
    ∃ B, ReplayLog (NewOpenCache 2 false "q")
        (some (([⟨"SET", "u", .strV "evan", 0⟩,
                 ⟨"SET", "s", .strV "abc", 2000⟩,
                 ⟨"DELETE", "u", .nilV, 0⟩] : List LogEntry).map
          (fun e => some (parseRecord e)))) [10, 11, 12] none =
          .ok (B, [], none) ∧
      B.cache = (⟨[.strV "s"], [⟨.strV "s", .strV "abc", some 2000000001⟩],
                  2, true, "p"⟩ : OpenCache).cache ∧
      kvProj B = mapVal jsonRoundTrip
        (kvProj ⟨[.strV "s"], [⟨.strV "s", .strV "abc", some 2000000001⟩],
                 2, true, "p"⟩) :=
  replay_round_trip_amended 2 "p" "q" false
    [CacheOp.setOp (.strV "u") (.strV "evan") none 0,
     CacheOp.setOp (.strV "s") (.strV "abc") (some 2000000000) 1,
     CacheOp.delOp (.strV "u")]
    (by decide)
    ⟨[.strV "s"], [⟨.strV "s", .strV "abc", some 2000000001⟩], 2, true, "p"⟩
    [⟨"SET", "u", .strV "evan", 0⟩, ⟨"SET", "s", .strV "abc", 2000⟩,
     ⟨"DELETE", "u", .nilV, 0⟩]
    (by decide) [10, 11, 12]

end OpenCacheGo
